import Mathlib

/-!
Verification development for the `build.cjs` asset-aggregation pipeline.

Strings are modelled as `List Char`; file systems as association lists from
paths (`List Char`) to file contents (`List Char`).  Each definition mirrors
one function of the source script; external library primitives that the
script merely invokes (`JSON.parse`, `jsonfile` serialization, the tar/gzip
codec, spawned processes) appear as explicit parameters.
-/

/-- Coercion from a Lean string literal to the `List Char` representation. -/
def str (x : String) : List Char := x.data

/-! ### The four literal replacement targets of `combine` (build.cjs lines 66-82) -/

/-- Literal target of the first `.replace` call. -/
def cssLink1 : List Char := str "<link rel=\"stylesheet\" href=\"./app.css\">"

/-- Literal target of the second `.replace` call. -/
def cssLink2 : List Char := str "<link rel=\"stylesheet\" href=\"./viper_lib.css\">"

/-- Literal target of the third `.replace` call. -/
def jsTag1 : List Char := str "<script src=\"./app.js\"></script>"

/-- Literal target of the fourth `.replace` call. -/
def jsTag2 : List Char := str "<script src=\"./viper_lib.js\"></script>"

/-- The four placeholder strings, indexed in the order `combine` replaces them. -/
def pats : Fin 4 → List Char
  | 0 => cssLink1
  | 1 => cssLink2
  | 2 => jsTag1
  | 3 => jsTag2

/-- List form of the four placeholder strings. -/
def patsList : List (List Char) := [cssLink1, cssLink2, jsTag1, jsTag2]

/-- Head of the inline style block template (the template literal starts
with the characters before the interpolation). -/
def styleOpen : List Char := str "<style>\n"

/-- Tail of the inline style block template. -/
def styleClose : List Char := str "\n</style>"

/-- Head of the inline script block template. -/
def scriptOpen : List Char := str "<script>\n"

/-- Tail of the inline script block template. -/
def scriptClose : List Char := str "\n</script>"

/-- Replacement string for a stylesheet target (template literal
interpolating the compiled stylesheet's full text). -/
def styleBlock (css : List Char) : List Char := styleOpen ++ css ++ styleClose

/-- Replacement string for a script target. -/
def scriptBlock (js : List Char) : List Char := scriptOpen ++ js ++ scriptClose

/-! ### JavaScript `String.prototype.replace` with string pattern and string
replacement.  The replacement string is processed by ECMA-262
`GetSubstitution`: with a string search value there are no capture groups, so
the recognized escapes are dollar-dollar, dollar-ampersand, dollar-backquote
and dollar-quote; any other dollar is literal. -/

/-- ECMA-262 GetSubstitution for a string search value: `matched` is the
matched text, `bef` the part of the subject before the match, `aft` the part
after it.  Char codes 96 and 39 are backquote and single quote. -/
def getSubstitution (matched bef aft : List Char) : List Char → List Char
  | [] => []
  | [c] => [c]
  | c :: d :: rest =>
    if c = '$' then
      if d = '$' then '$' :: getSubstitution matched bef aft rest
      else if d = '&' then matched ++ getSubstitution matched bef aft rest
      else if d = Char.ofNat 96 then bef ++ getSubstitution matched bef aft rest
      else if d = Char.ofNat 39 then aft ++ getSubstitution matched bef aft rest
      else c :: getSubstitution matched bef aft (d :: rest)
    else c :: getSubstitution matched bef aft (d :: rest)

/-- A replacement string is escape-free when it contains none of the four
recognized dollar escapes, so `getSubstitution` copies it verbatim. -/
def escFree : List Char → Bool
  | [] => true
  | [_] => true
  | c :: d :: rest =>
    (!(c = '$' && (d = '$' || d = '&' || d = Char.ofNat 96 || d = Char.ofNat 39)))
      && escFree (d :: rest)

/-- Index of the first occurrence of `pat` in a string, as
`String.prototype.indexOf` computes it for the first match of `replace`. -/
def strFind (pat : List Char) : List Char → Option Nat
  | [] => if pat.isPrefixOf [] then some 0 else none
  | c :: rest =>
    if pat.isPrefixOf (c :: rest) then some 0
    else (strFind pat rest).map (· + 1)

/-- Number of (possibly overlapping) start positions at which `pat` occurs. -/
def countOcc (pat : List Char) : List Char → Nat
  | [] => 0
  | c :: rest => (if pat.isPrefixOf (c :: rest) then 1 else 0) + countOcc pat rest

/-- JavaScript `s.replace(pat, repl)` with string arguments: replaces the
first occurrence of `pat`, processing `repl` through `GetSubstitution`;
a subject without an occurrence is returned unchanged. -/
def jsReplace (s pat repl : List Char) : List Char :=
  match strFind pat s with
  | none => s
  | some i =>
    s.take i
      ++ getSubstitution pat (s.take i) (s.drop (i + pat.length)) repl
      ++ s.drop (i + pat.length)

/-- The pure replacement chain of `combine` (build.cjs lines 65-82): the four
sequential `.replace` calls on the document's content. -/
def combineContent (content appCss viperCss appJs viperJs : List Char) : List Char :=
  jsReplace
    (jsReplace
      (jsReplace
        (jsReplace content cssLink1 (styleBlock appCss))
        cssLink2 (styleBlock viperCss))
      jsTag1 (scriptBlock appJs))
    jsTag2 (scriptBlock viperJs)

/-- The four replacement blocks of one `combine` run, indexed like `pats`. -/
def blocksOf (f1 f2 f3 f4 : List Char) : Fin 4 → List Char
  | 0 => styleBlock f1
  | 1 => styleBlock f2
  | 2 => scriptBlock f3
  | 3 => scriptBlock f4

example : jsReplace (str "ab") (str "b") (str "c") = str "ac" := by decide

example : jsReplace (str "xx") (str "b") (str "c") = str "xx" := by decide

example :
    jsReplace (str "ab") (str "b") (str "z$&z") = str "azbz" := by decide

example : countOcc (str "aa") (str "aaa") = 2 := by decide

/-! ### Occurrence counting lemmas -/

theorem countOcc_cons (pat : List Char) (c : Char) (rest : List Char) :
    countOcc pat (c :: rest)
      = (if pat <+: c :: rest then 1 else 0) + countOcc pat rest := by
  simp [countOcc, List.isPrefixOf_iff_prefix]

theorem countOcc_zero_of_short {pat s : List Char} (h : s.length < pat.length) :
    countOcc pat s = 0 := by
  induction s with
  | nil => rfl
  | cons c rest ih =>
    rw [countOcc_cons]
    have h1 : ¬ pat <+: c :: rest := by
      intro hp
      exact absurd hp.length_le (by omega)
    have h2 : rest.length < pat.length := by
      simp at h; omega
    simp [h1, ih h2]

theorem countOcc_self {pat : List Char} (hp : pat ≠ []) : countOcc pat pat = 1 := by
  match pat, hp with
  | c :: rest, _ =>
    rw [countOcc_cons]
    have h2 : countOcc (c :: rest) rest = 0 :=
      countOcc_zero_of_short (by simp)
    simp [h2]

theorem countOcc_pos {pat s : List Char} {i : Nat} (hp : pat ≠ [])
    (h : pat <+: s.drop i) : 1 ≤ countOcc pat s := by
  induction s generalizing i with
  | nil =>
    simp at h
    exact absurd h hp
  | cons c rest ih =>
    rw [countOcc_cons]
    match i with
    | 0 =>
      simp at h
      simp [h]
    | j + 1 =>
      have := ih (i := j) h
      omega

theorem countOcc_two {pat s : List Char} {i j : Nat} (hp : pat ≠ [])
    (hij : i < j) (hi : pat <+: s.drop i) (hj : pat <+: s.drop j) :
    2 ≤ countOcc pat s := by
  induction s generalizing i j with
  | nil =>
    simp at hi
    exact absurd hi hp
  | cons c rest ih =>
    rw [countOcc_cons]
    match i, hij with
    | 0, _ =>
      simp at hi
      match j, hij with
      | j' + 1, _ =>
        have h1 : 1 ≤ countOcc pat rest := countOcc_pos hp (i := j') hj
        simp [hi]
        omega
    | i' + 1, _ =>
      match j, hij with
      | j' + 1, _ =>
        have := ih (i := i') (j := j') (by omega) hi hj
        omega

/-- No occurrence of `pat` straddles the boundary between `a` and `b`. -/
def NoStrad (pat a b : List Char) : Prop :=
  ∀ k, 0 < k → k < pat.length → ¬(pat.take k <:+ a ∧ pat.drop k <+: b)

theorem prefix_append_iff_of_noStrad {pat a b : List Char} (hp : pat ≠ [])
    (h : NoStrad pat a b) (ha : a ≠ []) : pat <+: a ++ b ↔ pat <+: a := by
  constructor
  · intro hpfx
    rcases List.prefix_or_prefix_of_prefix hpfx (List.prefix_append a b) with h1 | h2
    · exact h1
    · by_cases hk : a.length < pat.length
      · exfalso
        apply h a.length (by cases a with | nil => exact absurd rfl ha | cons x xs => simp) hk
        have hta : pat.take a.length = a := (List.prefix_iff_eq_take.mp h2).symm
        refine ⟨?_, ?_⟩
        · rw [hta]
        · have hsplit : pat = a ++ pat.drop a.length := by
            conv_lhs => rw [← List.take_append_drop a.length pat, hta]
          rw [hsplit] at hpfx
          exact (List.prefix_append_right_inj a).mp hpfx
      · have hle : pat.length ≤ a.length := by omega
        have hpa : pat = a := (h2.eq_of_length_le hle).symm
        rw [hpa]
  · intro h1
    exact h1.trans (List.prefix_append a b)

theorem noStrad_cons {pat a b : List Char} {c : Char} (h : NoStrad pat (c :: a) b) :
    NoStrad pat a b := by
  intro k hk0 hk1 ⟨hs, hd⟩
  exact h k hk0 hk1 ⟨hs.trans (List.suffix_cons c a), hd⟩

theorem countOcc_append {pat a b : List Char} (hp : pat ≠ [])
    (h : NoStrad pat a b) :
    countOcc pat (a ++ b) = countOcc pat a + countOcc pat b := by
  induction a with
  | nil => simp [countOcc]
  | cons c a' ih =>
    have hiff : pat <+: (c :: a') ++ b ↔ pat <+: c :: a' :=
      prefix_append_iff_of_noStrad hp h (by simp)
    have hcc : countOcc pat ((c :: a') ++ b)
        = (if pat <+: (c :: a') ++ b then 1 else 0) + countOcc pat (a' ++ b) :=
      countOcc_cons pat c (a' ++ b)
    rw [hcc, countOcc_cons, ih (noStrad_cons h)]
    by_cases hpp : pat <+: c :: a'
    · rw [if_pos (hiff.mpr hpp), if_pos hpp]
      omega
    · rw [if_neg (fun hx => hpp (hiff.mp hx)), if_neg hpp]
      omega

/-! ### First-occurrence lemmas for `strFind` -/

theorem strFind_some_occ {pat s : List Char} {i : Nat}
    (h : strFind pat s = some i) : pat <+: s.drop i := by
  induction s generalizing i with
  | nil =>
    by_cases hc : pat.isPrefixOf ([] : List Char) <;> simp [strFind, hc] at h
    subst h
    simpa [← List.isPrefixOf_iff_prefix] using hc
  | cons c rest ih =>
    by_cases hc : pat.isPrefixOf (c :: rest)
    · simp [strFind, hc] at h
      subst h
      simpa [← List.isPrefixOf_iff_prefix] using hc
    · simp [strFind, hc] at h
      obtain ⟨j, hj, rfl⟩ := h
      simpa using ih hj

theorem strFind_some_min {pat s : List Char} {i : Nat}
    (h : strFind pat s = some i) : ∀ j, j < i → ¬ pat <+: s.drop j := by
  induction s generalizing i with
  | nil =>
    by_cases hc : pat.isPrefixOf ([] : List Char) <;> simp [strFind, hc] at h
    subst h
    omega
  | cons c rest ih =>
    by_cases hc : pat.isPrefixOf (c :: rest)
    · simp [strFind, hc] at h
      subst h
      omega
    · simp [strFind, hc] at h
      obtain ⟨i', hi', rfl⟩ := h
      intro j hj
      match j with
      | 0 =>
        simpa [← List.isPrefixOf_iff_prefix] using hc
      | j' + 1 =>
        simpa using ih hi' j' (by omega)

theorem strFind_le_of_occ {pat s : List Char} {i : Nat}
    (h : pat <+: s.drop i) : ∃ j, j ≤ i ∧ strFind pat s = some j := by
  induction s generalizing i with
  | nil =>
    simp at h
    refine ⟨0, by omega, ?_⟩
    simp [strFind, h, List.isPrefixOf_iff_prefix]
  | cons c rest ih =>
    by_cases hc : pat.isPrefixOf (c :: rest)
    · exact ⟨0, by omega, by simp [strFind, hc]⟩
    · match i with
      | 0 =>
        simp at h
        rw [← List.isPrefixOf_iff_prefix] at h
        exact absurd h hc
      | i' + 1 =>
        simp at h
        obtain ⟨j', hj', hf⟩ := ih h
        exact ⟨j' + 1, by omega, by simp [strFind, hc, hf]⟩

theorem strFind_decomp {pat a b : List Char} (hp : pat ≠ [])
    (h1 : countOcc pat (a ++ pat ++ b) = 1) :
    strFind pat (a ++ pat ++ b) = some a.length := by
  have hocc : pat <+: (a ++ pat ++ b).drop a.length := by
    rw [List.append_assoc, List.drop_left]
    exact List.prefix_append pat b
  obtain ⟨j, hj, hf⟩ := strFind_le_of_occ hocc
  rcases Nat.lt_or_ge j a.length with hlt | hge
  · exfalso
    have h2 := countOcc_two hp hlt (strFind_some_occ hf) hocc
    omega
  · have : j = a.length := by omega
    rw [← this]
    exact hf

theorem jsReplace_noop {pat s : List Char} (r : List Char) (hp : pat ≠ [])
    (h : countOcc pat s = 0) : jsReplace s pat r = s := by
  unfold jsReplace
  cases hf : strFind pat s with
  | none => rfl
  | some i =>
    exfalso
    have := countOcc_pos hp (strFind_some_occ hf)
    omega

/-! ### Verbatim copy of escape-free replacement strings -/

theorem gs_id {repl : List Char} (matched bef aft : List Char)
    (h : escFree repl = true) : getSubstitution matched bef aft repl = repl := by
  induction repl with
  | nil => rfl
  | cons c tail ih =>
    cases tail with
    | nil => rfl
    | cons d rest =>
      have hesc : escFree (c :: d :: rest) = true := h
      rw [escFree] at hesc
      rw [Bool.and_eq_true] at hesc
      obtain ⟨hne, htail⟩ := hesc
      have ihr := ih htail
      rw [getSubstitution]
      by_cases hc : c = '$'
      · have hd : ¬(d = '$' ∨ d = '&' ∨ d = Char.ofNat 96 ∨ d = Char.ofNat 39) := by
          intro hcase
          rw [hc] at hne
          rcases hcase with h1 | h1 | h1 | h1 <;> simp [h1] at hne
        push_neg at hd
        obtain ⟨hd1, hd2, hd3, hd4⟩ := hd
        simp only [hc, if_pos rfl, hd1, hd2, hd3, hd4, if_neg, ite_false]
        rw [ihr]
        simp [hd1, hd2, hd3, hd4]
      · simp only [hc, ite_false]
        rw [ihr]

theorem jsReplace_decomp {pat a b : List Char} (r : List Char) (hp : pat ≠ [])
    (h1 : countOcc pat (a ++ pat ++ b) = 1) (he : escFree r = true) :
    jsReplace (a ++ pat ++ b) pat r = a ++ r ++ b := by
  unfold jsReplace
  rw [strFind_decomp hp h1]
  dsimp only
  have htake : (a ++ pat ++ b).take a.length = a := by
    rw [List.append_assoc]
    exact List.take_left a (pat ++ b)
  have hdrop : (a ++ pat ++ b).drop (a.length + pat.length) = b := by
    rw [← List.length_append a pat]
    exact List.drop_left (a ++ pat) b
  rw [htake, hdrop, gs_id _ _ _ he]

/-! ### Decidable facts about the four concrete placeholder strings.
They are newline-free and aperiodic, and no nonempty proper prefix or suffix
of one placeholder aligns with another placeholder or with the block
delimiters; these facts rule out straddling occurrences. -/

theorem pats_ne_nil : ∀ p ∈ patsList, p ≠ [] := by decide

theorem pats_mem : ∀ j : Fin 4, pats j ∈ patsList := by decide

theorem pats_ne : ∀ j m : Fin 4, j ≠ m → pats j ≠ pats m := by decide

theorem pat_no_newline : ∀ p ∈ patsList, '\n' ∉ p := by decide

theorem newline_opens : '\n' ∈ styleOpen ∧ '\n' ∈ scriptOpen := by decide

theorem newline_closes : '\n' ∈ styleClose ∧ '\n' ∈ scriptClose := by decide

set_option maxHeartbeats 1000000 in
theorem dpack_drop_pat :
    ∀ p ∈ patsList, ∀ q ∈ patsList, ∀ k, k < p.length → 0 < k →
      ¬ p.drop k <+: q ∧ ¬ q <+: p.drop k := by decide

set_option maxHeartbeats 1000000 in
theorem dpack_take_pat :
    ∀ p ∈ patsList, ∀ q ∈ patsList, ∀ k, k < p.length → 0 < k →
      ¬ p.take k <:+ q := by decide

set_option maxHeartbeats 1000000 in
theorem dpack_drop_open :
    ∀ p ∈ patsList, ∀ o ∈ [styleOpen, scriptOpen], ∀ k, k < p.length → 0 < k →
      ¬ p.drop k <+: o := by decide

set_option maxHeartbeats 1000000 in
theorem dpack_take_close :
    ∀ p ∈ patsList, ∀ o ∈ [styleClose, scriptClose], ∀ k, k < p.length → 0 < k →
      ¬ p.take k <:+ o := by decide

set_option maxHeartbeats 1000000 in
theorem countOcc_pat_pat :
    ∀ p ∈ patsList, ∀ q ∈ patsList, p ≠ q → countOcc p q = 0 := by decide

/-- An element string of the inlining process: a placeholder or one of the
replacement blocks. -/
def IsElem (e : List Char) : Prop :=
  e ∈ patsList ∨ (∃ f, e = styleBlock f) ∨ (∃ f, e = scriptBlock f)

theorem elem_noDrop {p e : List Char} (hp : p ∈ patsList) (he : IsElem e)
    (z : List Char) {k : Nat} (hk0 : 0 < k) (hk1 : k < p.length) :
    ¬ p.drop k <+: e ++ z := by
  intro hd
  have hnl : '\n' ∉ p := pat_no_newline p hp
  rcases List.prefix_or_prefix_of_prefix hd (List.prefix_append e z) with h1 | h2
  · rcases he with hpat | ⟨f, rfl⟩ | ⟨f, rfl⟩
    · exact (dpack_drop_pat p hp e hpat k hk1 hk0).1 h1
    · rw [styleBlock, List.append_assoc] at h1
      rcases List.prefix_or_prefix_of_prefix h1
          (List.prefix_append styleOpen (f ++ styleClose)) with h1a | h1b
      · exact dpack_drop_open p hp styleOpen (by simp) k hk1 hk0 h1a
      · exact hnl (List.drop_subset k p (h1b.subset newline_opens.1))
    · rw [scriptBlock, List.append_assoc] at h1
      rcases List.prefix_or_prefix_of_prefix h1
          (List.prefix_append scriptOpen (f ++ scriptClose)) with h1a | h1b
      · exact dpack_drop_open p hp scriptOpen (by simp) k hk1 hk0 h1a
      · exact hnl (List.drop_subset k p (h1b.subset newline_opens.2))
  · rcases he with hpat | ⟨f, rfl⟩ | ⟨f, rfl⟩
    · exact (dpack_drop_pat p hp e hpat k hk1 hk0).2 h2
    · have hmem : '\n' ∈ styleBlock f := by
        rw [styleBlock, List.append_assoc]
        exact List.mem_append_left _ newline_opens.1
      exact hnl (List.drop_subset k p (h2.subset hmem))
    · have hmem : '\n' ∈ scriptBlock f := by
        rw [scriptBlock, List.append_assoc]
        exact List.mem_append_left _ newline_opens.2
      exact hnl (List.drop_subset k p (h2.subset hmem))

theorem elem_noTake {p e : List Char} (hp : p ∈ patsList) (he : IsElem e)
    {k : Nat} (hk0 : 0 < k) (hk1 : k < p.length) : ¬ p.take k <:+ e := by
  intro hs
  have hnl : '\n' ∉ p := pat_no_newline p hp
  rcases he with hpat | ⟨f, rfl⟩ | ⟨f, rfl⟩
  · exact dpack_take_pat p hp e hpat k hk1 hk0 hs
  · rw [styleBlock] at hs
    rcases List.suffix_or_suffix_of_suffix hs
        (List.suffix_append (styleOpen ++ f) styleClose) with hs1 | hs2
    · exact dpack_take_close p hp styleClose (by simp) k hk1 hk0 hs1
    · exact hnl (List.take_subset k p (hs2.subset newline_closes.1))
  · rw [scriptBlock] at hs
    rcases List.suffix_or_suffix_of_suffix hs
        (List.suffix_append (scriptOpen ++ f) scriptClose) with hs1 | hs2
    · exact dpack_take_close p hp scriptClose (by simp) k hk1 hk0 hs1
    · exact hnl (List.take_subset k p (hs2.subset newline_closes.2))

/-- Rendering of a document shape: an alternating list of (plain text,
element) pairs followed by a final plain segment. -/
def render : List (List Char × List Char) → List Char → List Char
  | [], tail => tail
  | (t, e) :: rest, tail => t ++ (e ++ render rest tail)

theorem render_append (xs ys : List (List Char × List Char)) (tail : List Char) :
    render (xs ++ ys) tail = render xs (render ys tail) := by
  induction xs with
  | nil => rfl
  | cons x rest ih =>
    obtain ⟨t, e⟩ := x
    simp [render, ih]

theorem render_flat (ts : List (List Char × List Char)) (x : List Char) :
    render ts x = render ts [] ++ x := by
  induction ts with
  | nil => simp [render]
  | cons y rest ih =>
    obtain ⟨t, e⟩ := y
    simp [render, ih]

theorem countOcc_render {p : List Char} (hp : p ∈ patsList)
    {ts : List (List Char × List Char)} {tail : List Char}
    (he : ∀ x ∈ ts, IsElem x.2) :
    countOcc p (render ts tail)
      = (ts.map (fun x => countOcc p x.1 + countOcc p x.2)).sum + countOcc p tail := by
  induction ts with
  | nil => simp [render]
  | cons y rest ih =>
    obtain ⟨t, e⟩ := y
    have hel : IsElem e := he (t, e) (List.mem_cons_self _ _)
    have hother : ∀ x ∈ rest, IsElem x.2 := fun x hx => he x (List.mem_cons_of_mem _ hx)
    have hpne : p ≠ [] := pats_ne_nil p hp
    have hstr1 : NoStrad p t (e ++ render rest tail) := by
      intro k hk0 hk1 hand
      exact elem_noDrop hp hel _ hk0 hk1 hand.2
    have hstr2 : NoStrad p e (render rest tail) := by
      intro k hk0 hk1 hand
      exact elem_noTake hp hel hk0 hk1 hand.1
    show countOcc p (t ++ (e ++ render rest tail)) = _
    rw [countOcc_append hpne hstr1, countOcc_append hpne hstr2, ih hother]
    simp [List.sum_cons]
    omega

theorem jsReplace_render {p r t tail : List Char} {ts1 ts2 : List (List Char × List Char)}
    (hp : p ∈ patsList) (hesc : escFree r = true)
    (hel : ∀ x ∈ ts1 ++ (t, p) :: ts2, IsElem x.2)
    (hz1 : ∀ x ∈ ts1, countOcc p x.1 = 0 ∧ countOcc p x.2 = 0)
    (hz2 : ∀ x ∈ ts2, countOcc p x.1 = 0 ∧ countOcc p x.2 = 0)
    (ht : countOcc p t = 0) (htail : countOcc p tail = 0) :
    jsReplace (render (ts1 ++ (t, p) :: ts2) tail) p r
      = render (ts1 ++ (t, r) :: ts2) tail := by
  have hpne : p ≠ [] := pats_ne_nil p hp
  have hdoc : render (ts1 ++ (t, p) :: ts2) tail
      = (render ts1 [] ++ t) ++ p ++ render ts2 tail := by
    rw [render_append, show render ((t, p) :: ts2) tail = t ++ (p ++ render ts2 tail) from rfl,
      render_flat ts1]
    simp [List.append_assoc]
  have hcnt : countOcc p ((render ts1 [] ++ t) ++ p ++ render ts2 tail) = 1 := by
    rw [← hdoc, countOcc_render hp hel]
    rw [List.map_append, List.sum_append, List.map_cons, List.sum_cons]
    have s1 : (ts1.map fun x => countOcc p x.1 + countOcc p x.2).sum = 0 := by
      apply List.sum_eq_zero
      intro n hn
      rw [List.mem_map] at hn
      obtain ⟨x, hx, rfl⟩ := hn
      have := hz1 x hx
      omega
    have s2 : (ts2.map fun x => countOcc p x.1 + countOcc p x.2).sum = 0 := by
      apply List.sum_eq_zero
      intro n hn
      rw [List.mem_map] at hn
      obtain ⟨x, hx, rfl⟩ := hn
      have := hz2 x hx
      omega
    rw [s1, s2, ht, htail, countOcc_self hpne]
    omega
  have hres := jsReplace_decomp r hpne hcnt hesc
  rw [hdoc, hres]
  rw [render_append, show render ((t, r) :: ts2) tail = t ++ (r ++ render ts2 tail) from rfl,
    render_flat ts1]
  simp [List.append_assoc]
  exact (render_flat ts1 _).symm

theorem jsReplace_render4 {p r tail : List Char} (v : Fin 4 → List Char × List Char)
    (m : Fin 4) (hp : p ∈ patsList) (hesc : escFree r = true)
    (hm : (v m).2 = p)
    (hel : ∀ i : Fin 4, IsElem (v i).2)
    (hz : ∀ i : Fin 4, countOcc p (v i).1 = 0)
    (hzz : ∀ i : Fin 4, i ≠ m → countOcc p (v i).2 = 0)
    (htail : countOcc p tail = 0) :
    jsReplace (render [v 0, v 1, v 2, v 3] tail) p r
      = render [if 0 = m then ((v m).1, r) else v 0,
                if 1 = m then ((v m).1, r) else v 1,
                if 2 = m then ((v m).1, r) else v 2,
                if 3 = m then ((v m).1, r) else v 3] tail := by
  fin_cases m
  · have hv : v 0 = ((v 0).1, p) := by
      rw [← hm]
      exact Prod.mk.eta.symm
    have hl : [v 0, v 1, v 2, v 3]
        = ([] : List (List Char × List Char)) ++ ((v 0).1, p) :: [v 1, v 2, v 3] := by
      simp [← hv]
    have hel' : ∀ x ∈ ([] : List (List Char × List Char)) ++ ((v 0).1, p) :: [v 1, v 2, v 3],
        IsElem x.2 := by
      intro x hx
      simp at hx
      rcases hx with rfl | rfl | rfl | rfl
      · exact Or.inl hp
      · exact hel 1
      · exact hel 2
      · exact hel 3
    have hz1' : ∀ x ∈ ([] : List (List Char × List Char)),
        countOcc p x.1 = 0 ∧ countOcc p x.2 = 0 := by
      intro x hx
      simp at hx
    have hz2' : ∀ x ∈ [v 1, v 2, v 3], countOcc p x.1 = 0 ∧ countOcc p x.2 = 0 := by
      intro x hx
      simp at hx
      rcases hx with rfl | rfl | rfl
      · exact ⟨hz 1, hzz 1 (by decide)⟩
      · exact ⟨hz 2, hzz 2 (by decide)⟩
      · exact ⟨hz 3, hzz 3 (by decide)⟩
    rw [hl, jsReplace_render hp hesc hel' hz1' hz2' (hz 0) htail]
    simp +decide
  · have hv : v 1 = ((v 1).1, p) := by
      rw [← hm]
      exact Prod.mk.eta.symm
    have hl : [v 0, v 1, v 2, v 3]
        = [v 0] ++ ((v 1).1, p) :: [v 2, v 3] := by
      simp [← hv]
    have hel' : ∀ x ∈ [v 0] ++ ((v 1).1, p) :: [v 2, v 3], IsElem x.2 := by
      intro x hx
      simp at hx
      rcases hx with rfl | rfl | rfl | rfl
      · exact hel 0
      · exact Or.inl hp
      · exact hel 2
      · exact hel 3
    have hz1' : ∀ x ∈ [v 0], countOcc p x.1 = 0 ∧ countOcc p x.2 = 0 := by
      intro x hx
      simp at hx
      subst hx
      exact ⟨hz 0, hzz 0 (by decide)⟩
    have hz2' : ∀ x ∈ [v 2, v 3], countOcc p x.1 = 0 ∧ countOcc p x.2 = 0 := by
      intro x hx
      simp at hx
      rcases hx with rfl | rfl
      · exact ⟨hz 2, hzz 2 (by decide)⟩
      · exact ⟨hz 3, hzz 3 (by decide)⟩
    rw [hl, jsReplace_render hp hesc hel' hz1' hz2' (hz 1) htail]
    simp +decide
  · have hv : v 2 = ((v 2).1, p) := by
      rw [← hm]
      exact Prod.mk.eta.symm
    have hl : [v 0, v 1, v 2, v 3]
        = [v 0, v 1] ++ ((v 2).1, p) :: [v 3] := by
      simp [← hv]
    have hel' : ∀ x ∈ [v 0, v 1] ++ ((v 2).1, p) :: [v 3], IsElem x.2 := by
      intro x hx
      simp at hx
      rcases hx with rfl | rfl | rfl | rfl
      · exact hel 0
      · exact hel 1
      · exact Or.inl hp
      · exact hel 3
    have hz1' : ∀ x ∈ [v 0, v 1], countOcc p x.1 = 0 ∧ countOcc p x.2 = 0 := by
      intro x hx
      simp at hx
      rcases hx with rfl | rfl
      · exact ⟨hz 0, hzz 0 (by decide)⟩
      · exact ⟨hz 1, hzz 1 (by decide)⟩
    have hz2' : ∀ x ∈ [v 3], countOcc p x.1 = 0 ∧ countOcc p x.2 = 0 := by
      intro x hx
      simp at hx
      subst hx
      exact ⟨hz 3, hzz 3 (by decide)⟩
    rw [hl, jsReplace_render hp hesc hel' hz1' hz2' (hz 2) htail]
    simp +decide
  · have hv : v 3 = ((v 3).1, p) := by
      rw [← hm]
      exact Prod.mk.eta.symm
    have hl : [v 0, v 1, v 2, v 3]
        = [v 0, v 1, v 2] ++ ((v 3).1, p) :: ([] : List (List Char × List Char)) := by
      simp [← hv]
    have hel' : ∀ x ∈ [v 0, v 1, v 2] ++ ((v 3).1, p) :: ([] : List (List Char × List Char)),
        IsElem x.2 := by
      intro x hx
      simp at hx
      rcases hx with rfl | rfl | rfl | rfl
      · exact hel 0
      · exact hel 1
      · exact hel 2
      · exact Or.inl hp
    have hz1' : ∀ x ∈ [v 0, v 1, v 2], countOcc p x.1 = 0 ∧ countOcc p x.2 = 0 := by
      intro x hx
      simp at hx
      rcases hx with rfl | rfl | rfl
      · exact ⟨hz 0, hzz 0 (by decide)⟩
      · exact ⟨hz 1, hzz 1 (by decide)⟩
      · exact ⟨hz 2, hzz 2 (by decide)⟩
    have hz2' : ∀ x ∈ ([] : List (List Char × List Char)),
        countOcc p x.1 = 0 ∧ countOcc p x.2 = 0 := by
      intro x hx
      simp at hx
    rw [hl, jsReplace_render hp hesc hel' hz1' hz2' (hz 3) htail]
    simp +decide

/-- Four-way case function on `Fin 4`. -/
def fin4 {α : Type} (a b c d : α) : Fin 4 → α
  | 0 => a
  | 1 => b
  | 2 => c
  | 3 => d

theorem isElem_pats (j : Fin 4) : IsElem (pats j) := Or.inl (pats_mem j)

theorem isElem_blocksOf (f1 f2 f3 f4 : List Char) (i : Fin 4) :
    IsElem (blocksOf f1 f2 f3 f4 i) := by
  match i with
  | 0 => exact Or.inr (Or.inl ⟨f1, rfl⟩)
  | 1 => exact Or.inr (Or.inl ⟨f2, rfl⟩)
  | 2 => exact Or.inr (Or.inr ⟨f3, rfl⟩)
  | 3 => exact Or.inr (Or.inr ⟨f4, rfl⟩)

/-- Intermediate state of the four-step replacement chain: after `n` steps,
position `m` of the document holds its block when pattern `σ m` has already
been processed, and still holds the placeholder otherwise. -/
def inlState (σ : Fin 4 → Fin 4) (t : Fin 4 → List Char) (f1 f2 f3 f4 : List Char)
    (n : Nat) (m : Fin 4) : List Char × List Char :=
  (t m, if (σ m).val < n then blocksOf f1 f2 f3 f4 (σ m) else pats (σ m))

theorem inlState_step {σ : Fin 4 → Fin 4} (hinj : Function.Injective σ)
    (t : Fin 4 → List Char) (f1 f2 f3 f4 : List Char) (n : Nat) (m0 i : Fin 4)
    (hm0 : (σ m0).val = n) :
    (if i = m0
      then ((inlState σ t f1 f2 f3 f4 n m0).1, blocksOf f1 f2 f3 f4 (σ m0))
      else inlState σ t f1 f2 f3 f4 n i)
      = inlState σ t f1 f2 f3 f4 (n + 1) i := by
  by_cases hi : i = m0
  · subst hi
    simp [inlState, hm0]
  · rw [if_neg hi]
    have hne : σ i ≠ σ m0 := fun h => hi (hinj h)
    have hval : (σ i).val ≠ n := by
      rw [← hm0]
      exact fun h => hne (Fin.val_injective h)
    have hiff : (σ i).val < n ↔ (σ i).val < n + 1 := by omega
    unfold inlState
    rw [if_congr hiff rfl rfl]

theorem fin4_at0 {α : Type} (a b c d : α) : fin4 a b c d 0 = a := rfl

theorem fin4_at1 {α : Type} (a b c d : α) : fin4 a b c d 1 = b := rfl

theorem fin4_at2 {α : Type} (a b c d : α) : fin4 a b c d 2 = c := rfl

theorem fin4_at3 {α : Type} (a b c d : α) : fin4 a b c d 3 = d := rfl

theorem inlState_zero (σ : Fin 4 → Fin 4) (t : Fin 4 → List Char)
    (f1 f2 f3 f4 : List Char) (m : Fin 4) :
    inlState σ t f1 f2 f3 f4 0 m = (t m, pats (σ m)) := by
  simp [inlState]

theorem inlState_last (σ : Fin 4 → Fin 4) (t : Fin 4 → List Char)
    (f1 f2 f3 f4 : List Char) (m : Fin 4) :
    inlState σ t f1 f2 f3 f4 4 m = (t m, blocksOf f1 f2 f3 f4 (σ m)) := by
  simp [inlState, (σ m).is_lt]

theorem combine_inline_core
    (σ : Fin 4 → Fin 4) (hbij : Function.Bijective σ)
    (t0 t1 t2 t3 t4 f1 f2 f3 f4 doc : List Char)
    (hdoc : doc = t0 ++ pats (σ 0) ++ t1 ++ pats (σ 1) ++ t2 ++ pats (σ 2)
        ++ t3 ++ pats (σ 3) ++ t4)
    (hcnt : ∀ j : Fin 4, countOcc (pats j) doc = 1)
    (hesc : ∀ m : Fin 4, escFree (blocksOf f1 f2 f3 f4 m) = true)
    (hclean : ∀ j m : Fin 4, countOcc (pats j) (blocksOf f1 f2 f3 f4 m) = 0) :
    combineContent doc f1 f2 f3 f4
        = t0 ++ blocksOf f1 f2 f3 f4 (σ 0) ++ t1 ++ blocksOf f1 f2 f3 f4 (σ 1)
          ++ t2 ++ blocksOf f1 f2 f3 f4 (σ 2) ++ t3 ++ blocksOf f1 f2 f3 f4 (σ 3) ++ t4
      ∧ ∀ j : Fin 4, countOcc (pats j) (combineContent doc f1 f2 f3 f4) = 0 := by
  have hinj := hbij.injective
  have hs0 : doc = render
      [inlState σ (fin4 t0 t1 t2 t3) f1 f2 f3 f4 0 0,
       inlState σ (fin4 t0 t1 t2 t3) f1 f2 f3 f4 0 1,
       inlState σ (fin4 t0 t1 t2 t3) f1 f2 f3 f4 0 2,
       inlState σ (fin4 t0 t1 t2 t3) f1 f2 f3 f4 0 3] t4 := by
    rw [hdoc]
    simp only [inlState_zero, fin4_at0, fin4_at1, fin4_at2, fin4_at3]
    simp [render, List.append_assoc]
  have hplain : ∀ j : Fin 4, countOcc (pats j) t0 = 0 ∧ countOcc (pats j) t1 = 0 ∧
      countOcc (pats j) t2 = 0 ∧ countOcc (pats j) t3 = 0 ∧ countOcc (pats j) t4 = 0 := by
    intro j
    obtain ⟨m0, hm0⟩ := hbij.surjective j
    have hother : ∀ i : Fin 4, i ≠ m0 → σ i ≠ j := by
      intro i hi h
      exact hi (hinj (h.trans hm0.symm))
    have hv : ∀ i : Fin 4, countOcc (pats j) (pats (σ i)) = if σ i = j then 1 else 0 := by
      intro i
      by_cases h : σ i = j
      · simp [h, countOcc_self (pats_ne_nil _ (pats_mem j))]
      · rw [if_neg h]
        exact countOcc_pat_pat (pats j) (pats_mem j) (pats (σ i)) (pats_mem _)
          (pats_ne j (σ i) (fun hji => h hji.symm))
    have hsum := hcnt j
    rw [hs0, countOcc_render (pats_mem j)
      (by
        intro x hx
        simp only [inlState_zero] at hx
        simp at hx
        rcases hx with rfl | rfl | rfl | rfl <;> exact isElem_pats _)] at hsum
    simp only [inlState_zero, fin4_at0, fin4_at1, fin4_at2, fin4_at3, List.map_cons,
      List.map_nil, List.sum_cons, List.sum_nil, hv] at hsum
    fin_cases m0
    · have hm0' : σ 0 = j := hm0
      rw [if_pos hm0', if_neg (hother 1 (by decide)), if_neg (hother 2 (by decide)),
        if_neg (hother 3 (by decide))] at hsum
      exact ⟨by omega, by omega, by omega, by omega, by omega⟩
    · have hm0' : σ 1 = j := hm0
      rw [if_pos hm0', if_neg (hother 0 (by decide)), if_neg (hother 2 (by decide)),
        if_neg (hother 3 (by decide))] at hsum
      exact ⟨by omega, by omega, by omega, by omega, by omega⟩
    · have hm0' : σ 2 = j := hm0
      rw [if_pos hm0', if_neg (hother 0 (by decide)), if_neg (hother 1 (by decide)),
        if_neg (hother 3 (by decide))] at hsum
      exact ⟨by omega, by omega, by omega, by omega, by omega⟩
    · have hm0' : σ 3 = j := hm0
      rw [if_pos hm0', if_neg (hother 0 (by decide)), if_neg (hother 1 (by decide)),
        if_neg (hother 2 (by decide))] at hsum
      exact ⟨by omega, by omega, by omega, by omega, by omega⟩
  have htail4 : ∀ j : Fin 4, countOcc (pats j) t4 = 0 := fun j => (hplain j).2.2.2.2
  have htv : ∀ j i : Fin 4, countOcc (pats j) (fin4 t0 t1 t2 t3 i) = 0 := by
    intro j i
    fin_cases i
    · exact (hplain j).1
    · exact (hplain j).2.1
    · exact (hplain j).2.2.1
    · exact (hplain j).2.2.2.1
  have hstep : ∀ (n : Nat) (hn : n < 4),
      jsReplace (render
        [inlState σ (fin4 t0 t1 t2 t3) f1 f2 f3 f4 n 0,
         inlState σ (fin4 t0 t1 t2 t3) f1 f2 f3 f4 n 1,
         inlState σ (fin4 t0 t1 t2 t3) f1 f2 f3 f4 n 2,
         inlState σ (fin4 t0 t1 t2 t3) f1 f2 f3 f4 n 3] t4)
        (pats ⟨n, hn⟩) (blocksOf f1 f2 f3 f4 ⟨n, hn⟩)
      = render
        [inlState σ (fin4 t0 t1 t2 t3) f1 f2 f3 f4 (n + 1) 0,
         inlState σ (fin4 t0 t1 t2 t3) f1 f2 f3 f4 (n + 1) 1,
         inlState σ (fin4 t0 t1 t2 t3) f1 f2 f3 f4 (n + 1) 2,
         inlState σ (fin4 t0 t1 t2 t3) f1 f2 f3 f4 (n + 1) 3] t4 := by
    intro n hn
    obtain ⟨m0, hm0⟩ := hbij.surjective ⟨n, hn⟩
    have hmv : (σ m0).val = n := by rw [hm0]
    have happ := jsReplace_render4 (inlState σ (fin4 t0 t1 t2 t3) f1 f2 f3 f4 n) m0
      (pats_mem ⟨n, hn⟩) (hesc ⟨n, hn⟩)
      (by
        show (inlState σ (fin4 t0 t1 t2 t3) f1 f2 f3 f4 n m0).2 = pats ⟨n, hn⟩
        rw [inlState, ← hm0]
        simp [hmv])
      (by
        intro i
        by_cases h : (σ i).val < n
        · simp only [inlState, if_pos h]
          exact isElem_blocksOf f1 f2 f3 f4 (σ i)
        · simp only [inlState, if_neg h]
          exact isElem_pats (σ i))
      (fun i => htv ⟨n, hn⟩ i)
      (by
        intro i hi
        have hne : σ i ≠ ⟨n, hn⟩ := fun h => hi (hinj (h.trans hm0.symm))
        by_cases h : (σ i).val < n
        · simp only [inlState, if_pos h]
          exact hclean ⟨n, hn⟩ (σ i)
        · simp only [inlState, if_neg h]
          exact countOcc_pat_pat (pats ⟨n, hn⟩) (pats_mem _) (pats (σ i)) (pats_mem _)
            (pats_ne _ _ (fun hji => hne hji.symm)))
      (htail4 ⟨n, hn⟩)
    rw [happ]
    have hst : ∀ i : Fin 4,
        (if i = m0
          then ((inlState σ (fin4 t0 t1 t2 t3) f1 f2 f3 f4 n m0).1,
                blocksOf f1 f2 f3 f4 ⟨n, hn⟩)
          else inlState σ (fin4 t0 t1 t2 t3) f1 f2 f3 f4 n i)
          = inlState σ (fin4 t0 t1 t2 t3) f1 f2 f3 f4 (n + 1) i := by
      intro i
      have hgen := inlState_step hinj (fin4 t0 t1 t2 t3) f1 f2 f3 f4 n m0 i hmv
      rw [hm0] at hgen
      exact hgen
    rw [hst 0, hst 1, hst 2, hst 3]
  have h4 : combineContent doc f1 f2 f3 f4 = render
      [inlState σ (fin4 t0 t1 t2 t3) f1 f2 f3 f4 4 0,
       inlState σ (fin4 t0 t1 t2 t3) f1 f2 f3 f4 4 1,
       inlState σ (fin4 t0 t1 t2 t3) f1 f2 f3 f4 4 2,
       inlState σ (fin4 t0 t1 t2 t3) f1 f2 f3 f4 4 3] t4 := by
    have hc : combineContent doc f1 f2 f3 f4
        = jsReplace (jsReplace (jsReplace (jsReplace doc
            (pats ⟨0, by omega⟩) (blocksOf f1 f2 f3 f4 ⟨0, by omega⟩))
            (pats ⟨1, by omega⟩) (blocksOf f1 f2 f3 f4 ⟨1, by omega⟩))
            (pats ⟨2, by omega⟩) (blocksOf f1 f2 f3 f4 ⟨2, by omega⟩))
            (pats ⟨3, by omega⟩) (blocksOf f1 f2 f3 f4 ⟨3, by omega⟩) := rfl
    rw [hc, hs0, hstep 0 (by omega), hstep 1 (by omega), hstep 2 (by omega),
      hstep 3 (by omega)]
  constructor
  · rw [h4]
    simp only [inlState_last, fin4_at0, fin4_at1, fin4_at2, fin4_at3]
    simp [render, List.append_assoc]
  · intro j
    rw [h4, countOcc_render (pats_mem j)
      (by
        intro x hx
        simp only [inlState_last] at hx
        simp at hx
        rcases hx with rfl | rfl | rfl | rfl <;> exact isElem_blocksOf f1 f2 f3 f4 _)]
    simp only [inlState_last, fin4_at0, fin4_at1, fin4_at2, fin4_at3, List.map_cons,
      List.map_nil, List.sum_cons, List.sum_nil]
    rw [hclean j (σ 0), hclean j (σ 1), hclean j (σ 2), hclean j (σ 3)]
    obtain ⟨p0, p1, p2, p3, p4⟩ := hplain j
    omega

/-! ### File-system model.  Paths and file contents are `List Char`; a file
system is an association list.  `readFile` (build.cjs line 27) surfaces a
thrown `ENOENT` as an `Except.error`. -/

/-- File system: association list from paths to text contents. -/
abbrev TextFS := List (List Char × List Char)

/-- Lookup of a path. -/
def lookupF : TextFS → List Char → Option (List Char)
  | [], _ => none
  | (k, v) :: rest, p => if k = p then some v else lookupF rest p

/-- Remove all entries at a path. -/
def eraseF : TextFS → List Char → TextFS
  | [], _ => []
  | (k, v) :: rest, p => if k = p then eraseF rest p else (k, v) :: eraseF rest p

/-- Write a file (create or overwrite). -/
def setF (fs : TextFS) (p v : List Char) : TextFS := (p, v) :: eraseF fs p

/-- The `readFile` helper (build.cjs lines 27-29): `fs.readFileSync(path,
"utf8")`, which throws when the file is absent. -/
def readF (fs : TextFS) (p : List Char) : Except (List Char) (List Char) :=
  match lookupF fs p with
  | some c => Except.ok c
  | none => Except.error (str "ENOENT " ++ p)

/-- The four compiled asset files read by `combine`, in source order. -/
def assetPaths : Fin 4 → List Char
  | 0 => str "build/app.css"
  | 1 => str "build/viper_lib.css"
  | 2 => str "build/app.js"
  | 3 => str "build/viper_lib.js"

/-- Does an `Except` hold an error? -/
def isErr {ε α : Type} : Except ε α → Bool
  | Except.error _ => true
  | Except.ok _ => false

/-- The `combine` function (build.cjs lines 64-84): read the document, then
perform the four `.replace` calls; each call's replacement argument is a
template literal that reads one compiled asset file eagerly, so every run
reads all four files whether or not its target occurs; the result is written
back in place.  Any failed read propagates (throws). -/
def combineFS (fs : TextFS) (p : List Char) : Except (List Char) TextFS :=
  match readF fs p with
  | Except.error e => Except.error e
  | Except.ok content =>
    match readF fs (assetPaths 0) with
    | Except.error e => Except.error e
    | Except.ok a =>
      match readF fs (assetPaths 1) with
      | Except.error e => Except.error e
      | Except.ok b =>
        match readF fs (assetPaths 2) with
        | Except.error e => Except.error e
        | Except.ok c =>
          match readF fs (assetPaths 3) with
          | Except.error e => Except.error e
          | Except.ok d => Except.ok (setF fs p (combineContent content a b c d))

theorem combineContent_noop {doc : List Char} (a b c d : List Char)
    (habs : ∀ j : Fin 4, countOcc (pats j) doc = 0) :
    combineContent doc a b c d = doc := by
  unfold combineContent
  rw [jsReplace_noop (styleBlock a) (by decide)
      (show countOcc cssLink1 doc = 0 from habs 0),
    jsReplace_noop (styleBlock b) (by decide)
      (show countOcc cssLink2 doc = 0 from habs 1),
    jsReplace_noop (scriptBlock c) (by decide)
      (show countOcc jsTag1 doc = 0 from habs 2),
    jsReplace_noop (scriptBlock d) (by decide)
      (show countOcc jsTag2 doc = 0 from habs 3)]

theorem combineFS_noop (fs : TextFS) (p doc a b c d : List Char)
    (hdoc : lookupF fs p = some doc)
    (h0 : lookupF fs (assetPaths 0) = some a)
    (h1 : lookupF fs (assetPaths 1) = some b)
    (h2 : lookupF fs (assetPaths 2) = some c)
    (h3 : lookupF fs (assetPaths 3) = some d)
    (habs : ∀ j : Fin 4, countOcc (pats j) doc = 0) :
    combineFS fs p = Except.ok (setF fs p doc) := by
  unfold combineFS readF
  rw [hdoc, h0, h1, h2, h3]
  dsimp only
  rw [combineContent_noop a b c d habs]

theorem combineFS_err (fs : TextFS) (p doc : List Char) (k : Fin 4)
    (hdoc : lookupF fs p = some doc)
    (hmiss : lookupF fs (assetPaths k) = none)
    (habs : countOcc (pats k) doc = 0) :
    isErr (combineFS fs p) = true := by
  unfold combineFS readF
  rw [hdoc]
  fin_cases k
  · have hm' : lookupF fs (assetPaths 0) = none := hmiss
    rw [hm']
    simp [isErr]
  · have hm' : lookupF fs (assetPaths 1) = none := hmiss
    cases hh0 : lookupF fs (assetPaths 0) with
    | none => simp [isErr]
    | some a =>
      rw [hm']
      simp [isErr]
  · have hm' : lookupF fs (assetPaths 2) = none := hmiss
    cases hh0 : lookupF fs (assetPaths 0) with
    | none => simp [isErr]
    | some a =>
      cases hh1 : lookupF fs (assetPaths 1) with
      | none => simp [isErr]
      | some b =>
        rw [hm']
        simp [isErr]
  · have hm' : lookupF fs (assetPaths 3) = none := hmiss
    cases hh0 : lookupF fs (assetPaths 0) with
    | none => simp [isErr]
    | some a =>
      cases hh1 : lookupF fs (assetPaths 1) with
      | none => simp [isErr]
      | some b =>
        cases hh2 : lookupF fs (assetPaths 2) with
        | none => simp [isErr]
        | some c =>
          rw [hm']
          simp [isErr]

theorem jsReplace_keeps_later {s pat : List Char} (r : List Char) {i j : Nat}
    (hp : pat ∈ patsList) (hfirst : strFind pat s = some i)
    (hij : i < j) (hj : pat <+: s.drop j) :
    i + pat.length ≤ j
    ∧ (jsReplace s pat r).take i = s.take i
    ∧ (jsReplace s pat r).drop
        (i + (getSubstitution pat (s.take i) (s.drop (i + pat.length)) r).length)
      = s.drop (i + pat.length)
    ∧ pat <+: (jsReplace s pat r).drop
        (j - pat.length
          + (getSubstitution pat (s.take i) (s.drop (i + pat.length)) r).length) := by
  have hpne : pat ≠ [] := pats_ne_nil pat hp
  have hi : pat <+: s.drop i := strFind_some_occ hfirst
  have hle : i + pat.length ≤ j := by
    by_contra hcon
    push_neg at hcon
    have hd0 : 0 < j - i := by omega
    have hdlen : j - i < pat.length := by omega
    obtain ⟨X, hX⟩ := hi
    have hsj : s.drop j = pat.drop (j - i) ++ X := by
      have h1 : s.drop j = (s.drop i).drop (j - i) := by
        rw [List.drop_drop]
        congr 1
        omega
      rw [h1, ← hX, List.drop_append_of_le_length (by omega)]
    rw [hsj] at hj
    rcases List.prefix_or_prefix_of_prefix hj
        (List.prefix_append (pat.drop (j - i)) X) with ha | hb
    · have := ha.length_le
      simp [List.length_drop] at this
      omega
    · exact (dpack_drop_pat pat hp pat hp (j - i) hdlen hd0).1 hb
  have hiL : i ≤ s.length := by
    by_contra hcon
    push_neg at hcon
    rw [List.drop_eq_nil_of_le (le_of_lt hcon)] at hi
    exact hpne (List.prefix_nil.mp hi)
  have hG : jsReplace s pat r
      = s.take i ++ getSubstitution pat (s.take i) (s.drop (i + pat.length)) r
          ++ s.drop (i + pat.length) := by
    unfold jsReplace
    rw [hfirst]
  have htakelen : (s.take i).length = i := by
    simp [List.length_take]
    omega
  have htake : (jsReplace s pat r).take i = s.take i := by
    rw [hG, List.append_assoc]
    exact List.take_left' htakelen
  have hdropG : (jsReplace s pat r).drop
      (i + (getSubstitution pat (s.take i) (s.drop (i + pat.length)) r).length)
      = s.drop (i + pat.length) := by
    rw [hG]
    exact List.drop_left' (by simp [htakelen])
  refine ⟨hle, htake, hdropG, ?_⟩
  have harith : j - pat.length
      + (getSubstitution pat (s.take i) (s.drop (i + pat.length)) r).length
      = (i + (getSubstitution pat (s.take i) (s.drop (i + pat.length)) r).length)
        + (j - (i + pat.length)) := by
    omega
  rw [harith, ← List.drop_drop, hdropG, List.drop_drop,
    show i + pat.length + (j - (i + pat.length)) = j by omega]
  exact hj

/-! ### JSON model for the Aggregator and Manifest Stamper.  `JSON.parse` and
the `jsonfile` serializer are external primitives; parsing appears as an
explicit `parse` parameter and the claims are stated on the parsed values
(the serializer is a deterministic function of the value, out of scope). -/

/-- A parsed JSON document.  Object fields keep their textual order, as
JavaScript objects preserve insertion order for string keys. -/
inductive JVal where
  | null : JVal
  | bool (b : Bool) : JVal
  | num (n : Int) : JVal
  | str (s : List Char) : JVal
  | arr (xs : List JVal) : JVal
  | obj (fields : List (List Char × JVal)) : JVal

instance : Inhabited JVal := ⟨JVal.null⟩

/-- First-match lookup in an object's field list. -/
def lookupJ : List (List Char × JVal) → List Char → Option JVal
  | [], _ => none
  | (k, v) :: rest, key => if k = key then some v else lookupJ rest key

/-- JavaScript property assignment `o[k] = v` on an object produced by
`JSON.parse`: an existing key keeps its position and gets the new value; an
absent key is appended at the end. -/
def objSet (fields : List (List Char × JVal)) (key : List Char) (v : JVal) :
    List (List Char × JVal) :=
  if (lookupJ fields key).isSome then
    fields.map (fun kv => if kv.1 = key then (kv.1, v) else kv)
  else fields ++ [(key, v)]

/-- The `version` key stamped by `genManifest`. -/
def verKey : List Char := str "version"

/-- The value-level content of `genManifest` (build.cjs lines 42-47), after
the two `JSON.parse` calls: `result.version = pkg.version`, then the result
is serialized.  Property assignment on a non-object parse result is a silent
no-op for primitives (and serialization drops the property again for
arrays); an absent `pkg.version` assigns `undefined`, which serialization
omits. -/
def genManifestModel (tpl : JVal) (ver : Option JVal) : JVal :=
  match tpl with
  | JVal.obj fields =>
    match ver with
    | some v => JVal.obj (objSet fields verKey v)
    | none => JVal.obj (fields.filter (fun kv => !(kv.1 == verKey)))
  | other => other

theorem lookupJ_append_none {fields : List (List Char × JVal)} {k : List Char}
    (h : lookupJ fields k = none) (tl : List (List Char × JVal)) :
    lookupJ (fields ++ tl) k = lookupJ tl k := by
  induction fields with
  | nil => rfl
  | cons kv rest ih =>
    obtain ⟨k', w⟩ := kv
    by_cases hk : k' = k
    · simp [lookupJ, hk] at h
    · simp only [lookupJ, if_neg hk] at h ⊢
      exact ih h

theorem lookupJ_none_iff {fields : List (List Char × JVal)} {k : List Char} :
    lookupJ fields k = none ↔ ∀ kv ∈ fields, kv.1 ≠ k := by
  induction fields with
  | nil => simp [lookupJ]
  | cons kv rest ih =>
    obtain ⟨k', w⟩ := kv
    by_cases hk : k' = k
    · simp [lookupJ, hk]
    · simp [lookupJ, hk, ih]

theorem lookupJ_objSet (fields : List (List Char × JVal)) (k : List Char) (v : JVal) :
    lookupJ (objSet fields k v) k = some v := by
  unfold objSet
  by_cases h : (lookupJ fields k).isSome
  · rw [if_pos h]
    induction fields with
    | nil => simp [lookupJ] at h
    | cons kv rest ih =>
      obtain ⟨k', w⟩ := kv
      by_cases hk : k' = k
      · subst hk
        simp only [List.map_cons]
        simp [lookupJ]
      · simp only [lookupJ, if_neg hk] at h
        simp only [List.map_cons]
        rw [if_neg hk]
        simp only [lookupJ]
        rw [if_neg hk]
        exact ih h
  · rw [if_neg h]
    rw [lookupJ_append_none (Option.not_isSome_iff_eq_none.mp h)]
    simp [lookupJ]

theorem lookupJ_map_frame (fields : List (List Char × JVal)) (k : List Char) (v : JVal)
    (k' : List Char) (hne : k' ≠ k) :
    lookupJ (fields.map (fun kv => if kv.1 = k then (kv.1, v) else kv)) k'
      = lookupJ fields k' := by
  induction fields with
  | nil => rfl
  | cons kv rest ih =>
    obtain ⟨k'', w⟩ := kv
    by_cases hk : k'' = k
    · simp only [List.map_cons]
      rw [if_pos hk]
      simp only [lookupJ]
      have hne2 : k'' ≠ k' := fun hh => hne (hh.symm.trans hk)
      rw [if_neg hne2, if_neg hne2, ih]
    · simp only [List.map_cons]
      rw [if_neg hk]
      simp only [lookupJ]
      by_cases h3 : k'' = k'
      · simp [h3]
      · rw [if_neg h3, if_neg h3, ih]

theorem lookupJ_append_single_frame (fields : List (List Char × JVal)) (k : List Char)
    (v : JVal) (k' : List Char) (hne : k' ≠ k) :
    lookupJ (fields ++ [(k, v)]) k' = lookupJ fields k' := by
  induction fields with
  | nil =>
    simp only [List.nil_append, lookupJ]
    rw [if_neg (fun hh => hne hh.symm)]
  | cons kv rest ih =>
    obtain ⟨k'', w⟩ := kv
    by_cases h3 : k'' = k'
    · simp [lookupJ, h3]
    · simp only [List.cons_append, lookupJ, if_neg h3]
      exact ih

theorem lookupJ_objSet_frame (fields : List (List Char × JVal)) (k : List Char) (v : JVal)
    (k' : List Char) (hne : k' ≠ k) :
    lookupJ (objSet fields k v) k' = lookupJ fields k' := by
  unfold objSet
  by_cases h : (lookupJ fields k).isSome
  · rw [if_pos h]
    exact lookupJ_map_frame fields k v k' hne
  · rw [if_neg h]
    exact lookupJ_append_single_frame fields k v k' hne

theorem objSet_keys (fields : List (List Char × JVal)) (k : List Char) (v : JVal) :
    (objSet fields k v).map Prod.fst
      = if (lookupJ fields k).isSome then fields.map Prod.fst
        else fields.map Prod.fst ++ [k] := by
  unfold objSet
  by_cases h : (lookupJ fields k).isSome
  · rw [if_pos h, if_pos h, List.map_map]
    apply List.map_congr_left
    intro kv _
    by_cases hk : kv.1 = k
    · simp [hk]
    · simp [hk]
  · rw [if_neg h, if_neg h]
    simp

theorem filter_map_objSet (fields : List (List Char × JVal)) (k : List Char) (v : JVal) :
    (fields.map (fun kv => if kv.1 = k then (kv.1, v) else kv)).filter
        (fun kv => !(kv.1 == k))
      = fields.filter (fun kv => !(kv.1 == k)) := by
  induction fields with
  | nil => rfl
  | cons kv rest ih =>
    obtain ⟨k', w⟩ := kv
    by_cases hk : k' = k
    · subst hk
      simp only [List.map_cons, List.filter_cons]
      simp [ih]
    · simp only [List.map_cons]
      rw [if_neg hk]
      simp only [List.filter_cons]
      simp [hk, ih]

theorem objSet_others (fields : List (List Char × JVal)) (k : List Char) (v : JVal) :
    (objSet fields k v).filter (fun kv => !(kv.1 == k))
      = fields.filter (fun kv => !(kv.1 == k)) := by
  unfold objSet
  by_cases h : (lookupJ fields k).isSome
  · rw [if_pos h]
    exact filter_map_objSet fields k v
  · rw [if_neg h, List.filter_append]
    simp

theorem objSet_idem (fields : List (List Char × JVal)) (k : List Char) (v : JVal) :
    objSet (objSet fields k v) k v = objSet fields k v := by
  by_cases h : (lookupJ fields k).isSome
  · have hset : objSet fields k v
        = fields.map (fun kv => if kv.1 = k then (kv.1, v) else kv) := by
      unfold objSet
      rw [if_pos h]
    have hsome : (lookupJ (objSet fields k v) k).isSome := by
      rw [lookupJ_objSet]
      rfl
    rw [hset] at hsome
    rw [hset]
    unfold objSet
    rw [if_pos hsome, List.map_map]
    apply List.map_congr_left
    intro kv _
    by_cases hk : kv.1 = k
    · simp [hk]
    · simp [hk]
  · have hset : objSet fields k v = fields ++ [(k, v)] := by
      unfold objSet
      rw [if_neg h]
    have hsome : (lookupJ (fields ++ [(k, v)]) k).isSome := by
      rw [lookupJ_append_none (Option.not_isSome_iff_eq_none.mp h)]
      simp [lookupJ]
    rw [hset]
    unfold objSet
    rw [if_pos hsome]
    have hnok : ∀ kv ∈ fields, kv.1 ≠ k :=
      lookupJ_none_iff.mp (Option.not_isSome_iff_eq_none.mp h)
    rw [List.map_append]
    congr 1
    · have hid : ∀ kv ∈ fields,
          (fun kv => if kv.1 = k then (kv.1, v) else kv) kv = id kv := by
        intro kv hkv
        simp [hnok kv hkv]
      rw [List.map_congr_left hid, List.map_id]
    · simp

/-! ### Aggregator (`genTranslations`, build.cjs lines 32-39). -/

/-- Does a directory entry name match `glob.sync("*.json")`: flat name with
the `.json` extension, not a dotfile (glob skips dotfiles by default). -/
def matchesJson (name : List Char) : Bool :=
  (str ".json").isSuffixOf name
    && (match name with
        | [] => false
        | c :: _ => !(c == '.'))
    && !(name.contains '/')

/-- The effect of `path.basename(file, ".json")` on a matched name. -/
def jsonBase (name : List Char) : List Char := name.take (name.length - 5)

/-- The aggregation loop of `genTranslations`: for each matched file in
listing order, parse it (a parse failure is a thrown error that aborts the
whole aggregation) and bind the parsed document to the extension-stripped
base name. -/
def aggFields (parse : List Char → Except (List Char) JVal) :
    List (List Char × List Char) → Except (List Char) (List (List Char × JVal))
  | [] => Except.ok []
  | (n, c) :: rest =>
    match parse c with
    | Except.error e => Except.error e
    | Except.ok v =>
      match aggFields parse rest with
      | Except.error e => Except.error e
      | Except.ok out => Except.ok ((jsonBase n, v) :: out)

/-- `genTranslations` as a function of the source-directory listing (entry
name, file content): filter the listing by the glob pattern, aggregate, and
produce the object that is then serialized to the destination (`glob.sync`
returns the matches in a deterministic order derived from the listing). -/
def genTranslationsCore (files : List (List Char × List Char))
    (parse : List Char → Except (List Char) JVal) : Except (List Char) JVal :=
  match aggFields parse (files.filter (fun x => matchesJson x.1)) with
  | Except.error e => Except.error e
  | Except.ok fields => Except.ok (JVal.obj fields)

theorem aggFields_ok (parse : List Char → Except (List Char) JVal)
    (l : List (List Char × List Char))
    (hok : ∀ x ∈ l, isErr (parse x.2) = false) :
    ∃ out, aggFields parse l = Except.ok out
      ∧ out.length = l.length
      ∧ out.map Prod.fst = l.map (fun x => jsonBase x.1)
      ∧ (∀ x ∈ l, ∀ v, parse x.2 = Except.ok v → (jsonBase x.1, v) ∈ out) := by
  induction l with
  | nil => exact ⟨[], rfl, rfl, rfl, by simp⟩
  | cons nc rest ih =>
    obtain ⟨n, c⟩ := nc
    obtain ⟨out', hout', hlen, hkeys, hmem⟩ :=
      ih (fun x hx => hok x (List.mem_cons_of_mem _ hx))
    cases hpc : parse c with
    | error e =>
      have := hok (n, c) (List.mem_cons_self _ _)
      rw [hpc] at this
      simp [isErr] at this
    | ok v =>
      refine ⟨(jsonBase n, v) :: out', ?_, ?_, ?_, ?_⟩
      · simp only [aggFields, hpc, hout']
      · simp [hlen]
      · simp [hkeys]
      · intro x hx w hw
        rcases List.mem_cons.mp hx with rfl | hx'
        · rw [hpc] at hw
          cases hw
          exact List.mem_cons_self _ _
        · exact List.mem_cons_of_mem _ (hmem x hx' w hw)

theorem lookupJ_of_mem_nodup {out : List (List Char × JVal)} {k : List Char} {v : JVal}
    (hnd : (out.map Prod.fst).Nodup) (hmem : (k, v) ∈ out) : lookupJ out k = some v := by
  induction out with
  | nil => simp at hmem
  | cons kv rest ih =>
    obtain ⟨k', w⟩ := kv
    rcases List.mem_cons.mp hmem with heq | htl
    · cases heq
      simp [lookupJ]
    · have hnd2 : k' ∉ rest.map Prod.fst ∧ (rest.map Prod.fst).Nodup :=
        List.nodup_cons.mp hnd
      have hk : k' ≠ k := by
        intro h
        subst h
        exact hnd2.1 (List.mem_map.mpr ⟨(k', v), htl, rfl⟩)
      simp only [lookupJ, if_neg hk]
      exact ih hnd2.2 htl

/-! ### Archive Builder (`genTar`, build.cjs lines 50-61). -/

/-- The `tar.c` options relevant to reproducibility. -/
structure TarOpts where
  gzip : Bool
  portable : Bool
  noMtime : Bool

/-- The options `genTar` passes: `{gzip: true, portable: true, noMtime:
true}`. -/
def tarOptsUsed : TarOpts := { gzip := true, portable := true, noMtime := true }

/-- One archive entry: path relative to the archive root (`cwd: src`), the
recorded modification time and owner when the options keep them, and the
content. -/
structure TarEntry where
  path : List Char
  mtime : Option Nat
  owner : Option (List Char)
  content : List Char
deriving DecidableEq

/-- A produced archive, at the structural level; the byte-level tar/gzip
codec is an external deterministic function of this structure.  With
`portable: true` node-tar also normalizes the gzip header timestamp. -/
structure TarArchive where
  gzipMtime : Option Nat
  entries : List TarEntry
deriving DecidableEq

/-- Files of the file system lying strictly under a directory. -/
def filesUnder (fs : TextFS) (src : List Char) : TextFS :=
  fs.filter (fun kv => (src ++ str "/").isPrefixOf kv.1)

/-- `genTar` (build.cjs lines 50-61): `tar.c({gzip: true, file: dst, cwd:
src, portable: true, noMtime: true}, readdirSync(src))` packs the entries of
`src` (recursively) with paths relative to `cwd`, in listing order.  The
machine context — per-file modification times `mtimeOf`, wall clock `now`,
owning user `user` — enters the archive only as far as the options allow. -/
def genTarModel (fs : TextFS) (src : List Char) (o : TarOpts)
    (mtimeOf : List Char → Nat) (now : Nat) (user : List Char) : TarArchive :=
  { gzipMtime := if o.portable then none else some now
    entries :=
      (filesUnder fs src).map (fun kv =>
        { path := kv.1.drop (src.length + 1)
          mtime := if o.noMtime then none else some (mtimeOf kv.1)
          owner := if o.portable then none else some user
          content := kv.2 }) }

/-! ### The staging copy of the static asset tree (build.cjs lines 92-95). -/

/-- `fs.cpSync` options at the call site: `force` (default `true`,
overwrite) and `errorOnExist` (per the Node.js documentation, consulted only
when `force` is `false`). -/
structure CpOpts where
  force : Bool
  errorOnExist : Bool

/-- The options of `fs.cpSync("./assets", "./build/assets", {recursive:
true, errorOnExist: true})`: `force` is not given, so it keeps its default
`true`. -/
def cpOptsUsed : CpOpts := { force := true, errorOnExist := true }

/-- Recursive `fs.cpSync(src, dst, opts)`: each file under `src` is copied
to the corresponding path under `dst`.  Node.js semantics: an existing
destination is overwritten when `force` holds; with `force: false` it is
skipped, or raises `ERR_FS_CP_EEXIST` when `errorOnExist` is set.  A missing
source directory is an error. -/
def cpSyncModel (fs : TextFS) (src dst : List Char) (o : CpOpts) :
    Except (List Char) TextFS :=
  if (filesUnder fs src).isEmpty then Except.error (str "ENOENT") else
  (filesUnder fs src).foldl
    (fun acc kv =>
      match acc with
      | Except.error e => Except.error e
      | Except.ok cur =>
        match lookupF cur (dst ++ kv.1.drop src.length) with
        | none => Except.ok (setF cur (dst ++ kv.1.drop src.length) kv.2)
        | some _ =>
          if o.force then Except.ok (setF cur (dst ++ kv.1.drop src.length) kv.2)
          else if o.errorOnExist then Except.error (str "ERR_FS_CP_EEXIST")
          else Except.ok cur)
    (Except.ok fs)

/-- Lookup of a path in the file system produced by a fallible step. -/
def lookupRes (r : Except (List Char) TextFS) (k : List Char) : Option (List Char) :=
  match r with
  | Except.ok fs => lookupF fs k
  | Except.error _ => none

/-- The resulting file system of a successful run (empty on error). -/
def okFS (r : Except (List Char) TextFS) : TextFS :=
  match r with
  | Except.ok fs => fs
  | Except.error _ => []

/-! ### Ordering of the pipeline's effects (`main`, build.cjs lines 87-139).
`genTar` calls `tar.c` with a `file` option and no callback; per the
node-tar API this starts the archive write and returns a promise, which
`genTar` discards — neither `genTar` nor `main` awaits it.  The two `run`
invocations are awaited (`await run(...)`).  The trace model records the
start of each archive write, its completion (inserted at a
schedule-dependent later position, since nothing awaits it), and each
awaited external command. -/

inductive BEv where
  | fsOp : BEv
  | tarStart (dst : List Char) : BEv
  | tarDone (dst : List Char) : BEv
  | cmd (c : List Char) : BEv
deriving DecidableEq

/-- The synchronous event order of `main`, before the pending archive
writes complete: Reset and staging (four file-system steps), the two
generators, the two `tar.c` starts, the optional `npm install`, the two
awaited commands, the three `combine` calls, the five `unlinkSync` calls
and the four vendored copies. -/
def baseTrace (hasNodeModules : Bool) : List BEv :=
  [BEv.fsOp, BEv.fsOp, BEv.fsOp, BEv.fsOp,
   BEv.fsOp, BEv.fsOp,
   BEv.tarStart (str "build/assets/tools_vfs.tar.gz"),
   BEv.tarStart (str "build/assets/vm_vfs.tar.gz")]
  ++ (if hasNodeModules then [] else [BEv.cmd (str "npm install")])
  ++ [BEv.cmd (str "npx eslint"), BEv.cmd (str "npm run build"),
      BEv.fsOp, BEv.fsOp, BEv.fsOp,
      BEv.fsOp, BEv.fsOp, BEv.fsOp, BEv.fsOp, BEv.fsOp,
      BEv.fsOp, BEv.fsOp, BEv.fsOp, BEv.fsOp]

/-- Insert an event after position `i` (clamped to the end). -/
def insertAt (tr : List BEv) (i : Nat) (e : BEv) : List BEv :=
  tr.take i ++ e :: tr.drop i

/-- A run of `main` under a completion schedule: each archive write
completes some number of events after the position where it starts — the
completions are not awaited, so any later interleaving is a possible
execution. -/
def runTrace (hasNodeModules : Bool) (d1 d2 : Nat) : List BEv :=
  insertAt
    (insertAt (baseTrace hasNodeModules) (7 + d1)
      (BEv.tarDone (str "build/assets/tools_vfs.tar.gz")))
    (9 + d2) (BEv.tarDone (str "build/assets/vm_vfs.tar.gz"))

/-- Index of the first event satisfying a predicate. -/
def firstIdx (p : BEv → Bool) : List BEv → Option Nat
  | [] => none
  | e :: rest => if p e then some 0 else (firstIdx p rest).map (· + 1)

/-- Does some event satisfying `p` occur, the first of them strictly before
the first event satisfying `q`? -/
def precedesB (p q : BEv → Bool) (tr : List BEv) : Bool :=
  match firstIdx p tr, firstIdx q tr with
  | some i, some j => decide (i < j)
  | _, _ => false

/-! ### The pipeline driver `main` (build.cjs lines 87-139) over the
file-system model.  External primitives are parameters: `parse` for
`JSON.parse`, `stringify` for the `jsonfile` serializer, `tarSer` for the
tar/gzip byte encoding, and `ext` for the effect of an awaited external
command on the file system (a failing command is an `Except.error`, as `run`
rethrows). -/

/-- `fs.existsSync` for a directory in the file-level model. -/
def existsDirF (fs : TextFS) (p : List Char) : Bool :=
  fs.any (fun kv => (p ++ str "/").isPrefixOf kv.1 || kv.1 == p)

/-- `fs.copyFileSync src dst`. -/
def copyFileM (fs : TextFS) (src dst : List Char) : Except (List Char) TextFS :=
  match lookupF fs src with
  | some c => Except.ok (setF fs dst c)
  | none => Except.error (str "ENOENT " ++ src)

/-- `fs.unlinkSync p`: removes the file, throwing when it is absent. -/
def unlinkF (fs : TextFS) (p : List Char) : Except (List Char) TextFS :=
  match lookupF fs p with
  | some _ => Except.ok (eraseF fs p)
  | none => Except.error (str "ENOENT " ++ p)

/-- `fs.rmSync(p, {recursive: true, force: true})`. -/
def rmRf (fs : TextFS) (p : List Char) : TextFS :=
  fs.filter (fun kv => !((p ++ str "/").isPrefixOf kv.1 || kv.1 == p))

/-- Directory listing with contents, names relative to the directory. -/
def namesUnder (fs : TextFS) (dir : List Char) : List (List Char × List Char) :=
  (filesUnder fs dir).map (fun kv => (kv.1.drop (dir.length + 1), kv.2))

/-- `genTranslations src dst` over the file system. -/
def genTranslationsFS (parse : List Char → Except (List Char) JVal)
    (stringify : JVal → List Char) (fs : TextFS) (src dst : List Char) :
    Except (List Char) TextFS :=
  match genTranslationsCore (namesUnder fs src) parse with
  | Except.error e => Except.error e
  | Except.ok v => Except.ok (setF fs dst (stringify v))

/-- `genManifest src dst` over the file system: reads and parses
`package.json` and the template, stamps the version, writes the result. -/
def genManifestFS (parse : List Char → Except (List Char) JVal)
    (stringify : JVal → List Char) (fs : TextFS) (src dst : List Char) :
    Except (List Char) TextFS :=
  match readF fs (str "package.json") with
  | Except.error e => Except.error e
  | Except.ok pkgTxt =>
    match parse pkgTxt with
    | Except.error e => Except.error e
    | Except.ok pkg =>
      match readF fs src with
      | Except.error e => Except.error e
      | Except.ok tplTxt =>
        match parse tplTxt with
        | Except.error e => Except.error e
        | Except.ok tpl =>
          Except.ok (setF fs dst (stringify (genManifestModel tpl
            (match pkg with
             | JVal.obj fields => lookupJ fields verKey
             | _ => none))))

/-- `genTar src dst` over the file system: `readdirSync` throws on a missing
directory; the archive's eventual content lands at `dst` (the write itself
is asynchronous, see the trace model).  The machine context passed to
`genTarModel` is irrelevant under the options used (`genTar_deterministic`). -/
def genTarFS (tarSer : TarArchive → List Char) (fs : TextFS) (src dst : List Char) :
    Except (List Char) TextFS :=
  if (filesUnder fs src).isEmpty then Except.error (str "ENOENT " ++ src)
  else Except.ok (setF fs dst (tarSer (genTarModel fs src tarOptsUsed (fun _ => 0) 0 [])))

/-- Stages 1-5 of `main` (build.cjs lines 88-111): Reset, staging, the three
generators and the two archives, the external commands, and the three
`combine` calls. -/
def mainFront (parse : List Char → Except (List Char) JVal)
    (stringify : JVal → List Char) (tarSer : TarArchive → List Char)
    (ext : List Char → TextFS → Except (List Char) TextFS) (fs0 : TextFS) :
    Except (List Char) TextFS := do
  let fs1 := rmRf fs0 (str "build")
  let fs2 ← copyFileM fs1 (str "src/webrepl_content.js") (str "build/webrepl_content.js")
  let fs3 ← cpSyncModel fs2 (str "assets") (str "build/assets") cpOptsUsed
  let fs4 ← genTranslationsFS parse stringify fs3 (str "src/lang") (str "build/translations.json")
  let fs5 ← genManifestFS parse stringify fs4 (str "src/manifest.json") (str "build/manifest.json")
  let fs6 ← genTarFS tarSer fs5 (str "src/tools_vfs") (str "build/assets/tools_vfs.tar.gz")
  let fs7 ← genTarFS tarSer fs6 (str "src/vm_vfs") (str "build/assets/vm_vfs.tar.gz")
  let fs8 ← if existsDirF fs7 (str "node_modules") then Except.ok fs7
            else ext (str "npm install") fs7
  let fs9 ← ext (str "npx eslint") fs8
  let fs10 ← ext (str "npm run build") fs9
  let fs11 ← combineFS fs10 (str "build/index.html")
  let fs12 ← combineFS fs11 (str "build/bridge.html")
  combineFS fs12 (str "build/benchmark.html")

/-- Stages 6-7 of `main` (build.cjs lines 113-137): the five `unlinkSync`
calls of the Cleanup stage, then the four vendored binary copies. -/
def mainTail (fs : TextFS) : Except (List Char) TextFS := do
  let a1 ← unlinkF fs (str "build/translations.json")
  let a2 ← unlinkF a1 (str "build/app.css")
  let a3 ← unlinkF a2 (str "build/viper_lib.css")
  let a4 ← unlinkF a3 (str "build/app.js")
  let a5 ← unlinkF a4 (str "build/viper_lib.js")
  let b1 ← copyFileM a5
    (str "node_modules/@micropython/micropython-webassembly-pyscript/micropython.wasm")
    (str "build/assets/micropython.wasm")
  let b2 ← copyFileM b1
    (str "node_modules/@micropython/micropython-webassembly-pyscript/micropython.mjs")
    (str "build/micropython.mjs")
  let b3 ← copyFileM b2
    (str "node_modules/@pybricks/mpy-cross-v6/build/mpy-cross-v6.wasm")
    (str "build/assets/mpy-cross-v6.wasm")
  copyFileM b3
    (str "node_modules/@astral-sh/ruff-wasm-web/ruff_wasm_bg.wasm")
    (str "build/assets/ruff_wasm_bg.wasm")

/-- The whole of `main`. -/
def execMain (parse : List Char → Except (List Char) JVal)
    (stringify : JVal → List Char) (tarSer : TarArchive → List Char)
    (ext : List Char → TextFS → Except (List Char) TextFS) (fs0 : TextFS) :
    Except (List Char) TextFS :=
  match mainFront parse stringify tarSer ext fs0 with
  | Except.error e => Except.error e
  | Except.ok fs => mainTail fs

theorem lookupF_eraseF_self (fs : TextFS) (p : List Char) :
    lookupF (eraseF fs p) p = none := by
  induction fs with
  | nil => rfl
  | cons kv rest ih =>
    obtain ⟨k, v⟩ := kv
    by_cases hk : k = p
    · simp [eraseF, hk, ih]
    · simp [eraseF, hk, lookupF, ih]

theorem lookupF_eraseF_ne (fs : TextFS) (p q : List Char) (h : q ≠ p) :
    lookupF (eraseF fs p) q = lookupF fs q := by
  induction fs with
  | nil => rfl
  | cons kv rest ih =>
    obtain ⟨k, v⟩ := kv
    by_cases hk : k = p
    · subst hk
      have h1 : eraseF ((k, v) :: rest) k = eraseF rest k := by
        simp [eraseF]
      rw [h1, ih]
      simp only [lookupF]
      rw [if_neg (fun hh => h hh.symm)]
    · simp only [eraseF, if_neg hk, lookupF]
      by_cases h2 : k = q
      · simp [h2]
      · rw [if_neg h2, if_neg h2]
        exact ih

theorem lookupF_setF_ne (fs : TextFS) (p v q : List Char) (h : q ≠ p) :
    lookupF (setF fs p v) q = lookupF fs q := by
  unfold setF
  simp only [lookupF]
  rw [if_neg (fun hh => h hh.symm)]
  exact lookupF_eraseF_ne fs p q h

theorem unlinkF_ok {fs a : TextFS} {p : List Char} (h : unlinkF fs p = Except.ok a) :
    a = eraseF fs p := by
  unfold unlinkF at h
  cases hl : lookupF fs p with
  | some c =>
    rw [hl] at h
    cases h
    rfl
  | none =>
    rw [hl] at h
    cases h

theorem copyFileM_ok {fs a : TextFS} {s d : List Char}
    (h : copyFileM fs s d = Except.ok a) : ∃ c, a = setF fs d c := by
  unfold copyFileM at h
  cases hl : lookupF fs s with
  | some c =>
    rw [hl] at h
    cases h
    exact ⟨c, rfl⟩
  | none =>
    rw [hl] at h
    cases h

theorem mainTail_removes {fs fsF : TextFS} (h : mainTail fs = Except.ok fsF) :
    lookupF fsF (str "build/translations.json") = none
    ∧ lookupF fsF (str "build/app.css") = none
    ∧ lookupF fsF (str "build/viper_lib.css") = none
    ∧ lookupF fsF (str "build/app.js") = none
    ∧ lookupF fsF (str "build/viper_lib.js") = none := by
  unfold mainTail at h
  cases h1 : unlinkF fs (str "build/translations.json") with
  | error e => rw [h1] at h; exact absurd h (by simp [Bind.bind, Except.bind])
  | ok a1 =>
  rw [h1] at h
  simp only [Bind.bind, Except.bind] at h
  cases h2 : unlinkF a1 (str "build/app.css") with
  | error e => rw [h2] at h; exact absurd h (by simp [Except.bind])
  | ok a2 =>
  rw [h2] at h
  simp only [Except.bind] at h
  cases h3 : unlinkF a2 (str "build/viper_lib.css") with
  | error e => rw [h3] at h; exact absurd h (by simp [Except.bind])
  | ok a3 =>
  rw [h3] at h
  simp only [Except.bind] at h
  cases h4 : unlinkF a3 (str "build/app.js") with
  | error e => rw [h4] at h; exact absurd h (by simp [Except.bind])
  | ok a4 =>
  rw [h4] at h
  simp only [Except.bind] at h
  cases h5 : unlinkF a4 (str "build/viper_lib.js") with
  | error e => rw [h5] at h; exact absurd h (by simp [Except.bind])
  | ok a5 =>
  rw [h5] at h
  simp only [Except.bind] at h
  cases h6 : copyFileM a5
      (str "node_modules/@micropython/micropython-webassembly-pyscript/micropython.wasm")
      (str "build/assets/micropython.wasm") with
  | error e => rw [h6] at h; exact absurd h (by simp [Except.bind])
  | ok b1 =>
  rw [h6] at h
  simp only [Except.bind] at h
  cases h7 : copyFileM b1
      (str "node_modules/@micropython/micropython-webassembly-pyscript/micropython.mjs")
      (str "build/micropython.mjs") with
  | error e => rw [h7] at h; exact absurd h (by simp [Except.bind])
  | ok b2 =>
  rw [h7] at h
  simp only [Except.bind] at h
  cases h8 : copyFileM b2
      (str "node_modules/@pybricks/mpy-cross-v6/build/mpy-cross-v6.wasm")
      (str "build/assets/mpy-cross-v6.wasm") with
  | error e => rw [h8] at h; exact absurd h (by simp [Except.bind])
  | ok b3 =>
  rw [h8] at h
  simp only [Except.bind] at h
  have e1 := unlinkF_ok h1
  have e2 := unlinkF_ok h2
  have e3 := unlinkF_ok h3
  have e4 := unlinkF_ok h4
  have e5 := unlinkF_ok h5
  obtain ⟨c1, e6⟩ := copyFileM_ok h6
  obtain ⟨c2, e7⟩ := copyFileM_ok h7
  obtain ⟨c3, e8⟩ := copyFileM_ok h8
  obtain ⟨c4, e9⟩ := copyFileM_ok h
  have key : ∀ k : List Char,
      k = str "build/translations.json" ∨ k = str "build/app.css"
        ∨ k = str "build/viper_lib.css" ∨ k = str "build/app.js"
        ∨ k = str "build/viper_lib.js" →
      lookupF fsF k = none := by
    intro k hk
    have hink1 : k ≠ str "build/assets/micropython.wasm" := by
      rcases hk with rfl | rfl | rfl | rfl | rfl <;> decide
    have hink2 : k ≠ str "build/micropython.mjs" := by
      rcases hk with rfl | rfl | rfl | rfl | rfl <;> decide
    have hink3 : k ≠ str "build/assets/mpy-cross-v6.wasm" := by
      rcases hk with rfl | rfl | rfl | rfl | rfl <;> decide
    have hink4 : k ≠ str "build/assets/ruff_wasm_bg.wasm" := by
      rcases hk with rfl | rfl | rfl | rfl | rfl <;> decide
    rw [e9, lookupF_setF_ne _ _ _ _ hink4, e8, lookupF_setF_ne _ _ _ _ hink3,
      e7, lookupF_setF_ne _ _ _ _ hink2, e6, lookupF_setF_ne _ _ _ _ hink1,
      e5, e4, e3, e2, e1]
    rcases hk with rfl | rfl | rfl | rfl | rfl
    · rw [lookupF_eraseF_ne _ _ _ (by decide), lookupF_eraseF_ne _ _ _ (by decide),
        lookupF_eraseF_ne _ _ _ (by decide), lookupF_eraseF_ne _ _ _ (by decide)]
      exact lookupF_eraseF_self _ _
    · rw [lookupF_eraseF_ne _ _ _ (by decide), lookupF_eraseF_ne _ _ _ (by decide),
        lookupF_eraseF_ne _ _ _ (by decide)]
      exact lookupF_eraseF_self _ _
    · rw [lookupF_eraseF_ne _ _ _ (by decide), lookupF_eraseF_ne _ _ _ (by decide)]
      exact lookupF_eraseF_self _ _
    · rw [lookupF_eraseF_ne _ _ _ (by decide)]
      exact lookupF_eraseF_self _ _
    · exact lookupF_eraseF_self _ _
  exact ⟨key _ (Or.inl rfl), key _ (Or.inr (Or.inl rfl)),
    key _ (Or.inr (Or.inr (Or.inl rfl))),
    key _ (Or.inr (Or.inr (Or.inr (Or.inl rfl)))),
    key _ (Or.inr (Or.inr (Or.inr (Or.inr rfl))))⟩

/-! ### Concrete data used by counterexamples and witnesses. -/

/-- A document containing each of the four placeholders exactly once. -/
def exDoc : List Char := cssLink1 ++ cssLink2 ++ jsTag1 ++ jsTag2

/-- A colliding file system for the staging copy: the destination already
contains an entry that the source tree also provides. -/
def fsC1 : TextFS :=
  [(str "assets/logo.png", str "NEW"), (str "build/assets/logo.png", str "OLD")]

/-- Claim C1 (code bug).  The spec says the staging copy of the static asset
tree is strict and non-clobbering: it must fail whenever a destination entry
already exists, aborting the pipeline.  The call passes `errorOnExist: true`
— plainly intending that behavior — but omits `force`, which defaults to
`true`; per the Node.js `fs.cpSync` semantics `errorOnExist` is only
consulted when `force` is `false`, so the copy silently overwrites the
existing destination entry and succeeds.  Evaluated at a colliding input:
the copy succeeds and the destination holds the source's content. -/
theorem claim_C1_cpSync_overwrites :
    cpOptsUsed.errorOnExist = true
    ∧ isErr (cpSyncModel fsC1 (str "assets") (str "build/assets") cpOptsUsed) = false
    ∧ lookupRes (cpSyncModel fsC1 (str "assets") (str "build/assets") cpOptsUsed)
        (str "build/assets/logo.png") = some (str "NEW") := by
  decide

/-- Claim C3 (counterexample).  The claim says both destination archives are
fully written before the external linter stage begins, on every run.  The
archive write is started by `tar.c` but its promise is discarded, so there
are runs — here the schedule where both writes complete 20 events after
starting — in which `npx eslint` begins before either archive completion. -/
theorem claim_C3_counterexample :
    ¬ (∀ d1 d2 : Nat,
        precedesB (fun e => e == BEv.tarDone (str "build/assets/tools_vfs.tar.gz"))
          (fun e => e == BEv.cmd (str "npx eslint")) (runTrace true d1 d2) = true
        ∧ precedesB (fun e => e == BEv.tarDone (str "build/assets/vm_vfs.tar.gz"))
          (fun e => e == BEv.cmd (str "npx eslint")) (runTrace true d1 d2) = true) := by
  intro hcl
  exact absurd (hcl 20 20).1 (by decide)

/-- Claim C3 (amended).  Archive creation is initiated before the
external-tool stage — both `tar.c` starts precede the `npx eslint` command
in the synchronous order, whether or not `npm install` runs — but its
completion is not awaited: there is a run (a valid schedule, completions
after their starts) in which the linter begins before either archive is
fully written.  Only the external-process invocations are awaited. -/
theorem claim_C3_amended :
    (∀ b : Bool,
        precedesB (fun e => e == BEv.tarStart (str "build/assets/tools_vfs.tar.gz"))
          (fun e => e == BEv.cmd (str "npx eslint")) (baseTrace b) = true
        ∧ precedesB (fun e => e == BEv.tarStart (str "build/assets/vm_vfs.tar.gz"))
          (fun e => e == BEv.cmd (str "npx eslint")) (baseTrace b) = true)
    ∧ precedesB (fun e => e == BEv.cmd (str "npx eslint"))
        (fun e => e == BEv.tarDone (str "build/assets/tools_vfs.tar.gz"))
        (runTrace true 20 20) = true
    ∧ precedesB (fun e => e == BEv.cmd (str "npx eslint"))
        (fun e => e == BEv.tarDone (str "build/assets/vm_vfs.tar.gz"))
        (runTrace true 20 20) = true
    ∧ precedesB (fun e => e == BEv.tarStart (str "build/assets/tools_vfs.tar.gz"))
        (fun e => e == BEv.tarDone (str "build/assets/tools_vfs.tar.gz"))
        (runTrace true 20 20) = true
    ∧ precedesB (fun e => e == BEv.tarStart (str "build/assets/vm_vfs.tar.gz"))
        (fun e => e == BEv.tarDone (str "build/assets/vm_vfs.tar.gz"))
        (runTrace true 20 20) = true := by
  decide

/-- Claim C4 (confirmed).  Under the options `genTar` passes — `portable:
true`, `noMtime: true`, entries named relative to `cwd: src` — the produced
archive records no wall-clock modification times (entry mtimes and the gzip
header timestamp are absent) and no machine-specific owner, and every entry
path is the source-relative path of a file of the source directory; hence
the archive structure is independent of the machine context (file mtimes,
wall clock, user), so two runs on identical directory contents produce
identical archives (the byte encoding is a deterministic function of this
structure). -/
theorem claim_C4_tar_deterministic (fs : TextFS) (src : List Char)
    (mt mt' : List Char → Nat) (now now' : Nat) (u u' : List Char) :
    genTarModel fs src tarOptsUsed mt now u = genTarModel fs src tarOptsUsed mt' now' u'
    ∧ (genTarModel fs src tarOptsUsed mt now u).gzipMtime = none
    ∧ ∀ e ∈ (genTarModel fs src tarOptsUsed mt now u).entries,
        e.mtime = none ∧ e.owner = none
          ∧ (src ++ str "/" ++ e.path, e.content) ∈ fs := by
  refine ⟨by simp [genTarModel, tarOptsUsed], rfl, ?_⟩
  intro e he
  simp only [genTarModel, tarOptsUsed] at he
  rw [List.mem_map] at he
  obtain ⟨kv, hkv, rfl⟩ := he
  refine ⟨by simp, by simp, ?_⟩
  dsimp only
  unfold filesUnder at hkv
  rw [List.mem_filter] at hkv
  obtain ⟨hmem, hpref⟩ := hkv
  rw [List.isPrefixOf_iff_prefix] at hpref
  obtain ⟨t, ht⟩ := hpref
  have hlen : (src ++ str "/").length = src.length + 1 := by
    simp [str]
  have hdrop : kv.1.drop (src.length + 1) = t := by
    rw [← ht, ← hlen]
    exact List.drop_left _ _
  simp only [hdrop]
  rw [ht]
  simpa using hmem

/-- Claim C5 (confirmed).  For a source directory whose recognized-extension
documents have distinct base names and all parse, the Aggregator succeeds
and produces one object whose keys are exactly the extension-stripped base
names of the matched files (so exactly N keys for N matched documents), each
bound to the parsed content of its file; an empty match list yields the
empty object rather than an error. -/
theorem claim_C5_aggregator (files : List (List Char × List Char))
    (parse : List Char → Except (List Char) JVal)
    (hok : ∀ x ∈ files.filter (fun x => matchesJson x.1), isErr (parse x.2) = false)
    (hnodup : ((files.filter (fun x => matchesJson x.1)).map
        (fun x => jsonBase x.1)).Nodup) :
    isErr (genTranslationsCore files parse) = false
    ∧ ∀ out, aggFields parse (files.filter (fun x => matchesJson x.1)) = Except.ok out →
        out.length = (files.filter (fun x => matchesJson x.1)).length
        ∧ out.map Prod.fst
            = (files.filter (fun x => matchesJson x.1)).map (fun x => jsonBase x.1)
        ∧ (∀ x ∈ files.filter (fun x => matchesJson x.1), ∀ v,
            parse x.2 = Except.ok v → lookupJ out (jsonBase x.1) = some v)
        ∧ (files.filter (fun x => matchesJson x.1) = [] → out = []) := by
  obtain ⟨out0, hout0, hlen0, hkeys0, hmem0⟩ := aggFields_ok parse _ hok
  constructor
  · unfold genTranslationsCore
    rw [hout0]
    rfl
  · intro out hout
    rw [hout0] at hout
    injection hout with hh
    subst hh
    refine ⟨hlen0, hkeys0, ?_, ?_⟩
    · intro x hx v hv
      have hnd : (out0.map Prod.fst).Nodup := by
        rw [hkeys0]
        exact hnodup
      exact lookupJ_of_mem_nodup hnd (hmem0 x hx v hv)
    · intro hempty
      rw [hempty] at hout0
      injection hout0 with hh
      exact hh.symm

/-- A parse stub binding each file to its raw text, for the C5 witness. -/
def parseW : List Char → Except (List Char) JVal :=
  fun c => Except.ok (JVal.str c)

/-- A concrete translations directory listing for the C5 witness. -/
def filesW : List (List Char × List Char) :=
  [(str "en.json", str "E"), (str "fr.json", str "F"), (str "notes.txt", str "N")]

/-- Witness for claim C5 at a concrete directory listing with two matched
language files and one unmatched file. -/
theorem claim_C5_witness :
    isErr (genTranslationsCore filesW parseW) = false
    ∧ ∀ out, aggFields parseW (filesW.filter (fun x => matchesJson x.1)) = Except.ok out →
        out.length = (filesW.filter (fun x => matchesJson x.1)).length
        ∧ out.map Prod.fst
            = (filesW.filter (fun x => matchesJson x.1)).map (fun x => jsonBase x.1)
        ∧ (∀ x ∈ filesW.filter (fun x => matchesJson x.1), ∀ v,
            parseW x.2 = Except.ok v → lookupJ out (jsonBase x.1) = some v)
        ∧ (filesW.filter (fun x => matchesJson x.1) = [] → out = []) :=
  claim_C5_aggregator filesW parseW (by decide) (by decide)

/-- Claim C6 (confirmed).  Stamping a template object with a project-version
string sets exactly the `version` field: the stamped object's `version`
equals the given string; every other field keeps its value and the original
key order (the sequence of non-`version` fields is unchanged, and the key
list is the original one, with `version` appended only when absent); and
stamping is idempotent, so re-running on the same inputs reproduces the same
document (serialization is a deterministic function of this value). -/
theorem claim_C6_manifest (fields : List (List Char × JVal)) (v : List Char) :
    genManifestModel (JVal.obj fields) (some (JVal.str v))
        = JVal.obj (objSet fields verKey (JVal.str v))
    ∧ lookupJ (objSet fields verKey (JVal.str v)) verKey = some (JVal.str v)
    ∧ (∀ k, k ≠ verKey →
        lookupJ (objSet fields verKey (JVal.str v)) k = lookupJ fields k)
    ∧ (objSet fields verKey (JVal.str v)).filter (fun kv => !(kv.1 == verKey))
        = fields.filter (fun kv => !(kv.1 == verKey))
    ∧ (objSet fields verKey (JVal.str v)).map Prod.fst
        = (if (lookupJ fields verKey).isSome then fields.map Prod.fst
           else fields.map Prod.fst ++ [verKey])
    ∧ objSet (objSet fields verKey (JVal.str v)) verKey (JVal.str v)
        = objSet fields verKey (JVal.str v) :=
  ⟨rfl, lookupJ_objSet fields verKey (JVal.str v),
    fun k hk => lookupJ_objSet_frame fields verKey (JVal.str v) k hk,
    objSet_others fields verKey (JVal.str v),
    objSet_keys fields verKey (JVal.str v),
    objSet_idem fields verKey (JVal.str v)⟩

/-- Claim C7 (confirmed).  Each replacement target of the Inliner is an
exact literal string, and an absent target is silently skipped: on a
document in which none of the four placeholder strings occurs — e.g. an
already-inlined document — `combine` does not throw (given the four compiled
files it unconditionally reads are present) and writes the document back
unchanged. -/
theorem claim_C7_noop (fs : TextFS) (p doc a b c d : List Char)
    (hdoc : lookupF fs p = some doc)
    (h0 : lookupF fs (assetPaths 0) = some a)
    (h1 : lookupF fs (assetPaths 1) = some b)
    (h2 : lookupF fs (assetPaths 2) = some c)
    (h3 : lookupF fs (assetPaths 3) = some d)
    (habs : ∀ j : Fin 4, countOcc (pats j) doc = 0) :
    combineFS fs p = Except.ok (setF fs p doc) :=
  combineFS_noop fs p doc a b c d hdoc h0 h1 h2 h3 habs

/-- A file system for the C7 witness: a placeholder-free document and the
four compiled asset files. -/
def fsW7 : TextFS :=
  [(str "build/index.html", str "<html>done</html>"),
   (str "build/app.css", str "A"), (str "build/viper_lib.css", str "B"),
   (str "build/app.js", str "C"), (str "build/viper_lib.js", str "D")]

/-- Witness for claim C7: a second run on an already-inlined document
returns it unchanged without an error. -/
theorem claim_C7_witness :
    combineFS fsW7 (str "build/index.html")
      = Except.ok (setF fsW7 (str "build/index.html") (str "<html>done</html>")) :=
  claim_C7_noop fsW7 (str "build/index.html") (str "<html>done</html>")
    (str "A") (str "B") (str "C") (str "D")
    (by decide) (by decide) (by decide) (by decide) (by decide) (by decide)

/-- Claim C9 (confirmed).  `combine` reads all four compiled asset files on
every invocation, unconditionally — the reads happen as argument evaluation
of the four `.replace` calls, not conditionally on a match — so when any one
of the four files is missing it throws, even for a document in which that
file's placeholder string does not occur at all. -/
theorem claim_C9_reads_all (fs : TextFS) (p doc : List Char) (k : Fin 4)
    (hdoc : lookupF fs p = some doc)
    (hmiss : lookupF fs (assetPaths k) = none)
    (habs : countOcc (pats k) doc = 0) :
    isErr (combineFS fs p) = true :=
  combineFS_err fs p doc k hdoc hmiss habs

/-- A file system for the C9 witness: the document has no `app.js`
placeholder, and `build/app.js` is missing; the other three assets exist. -/
def fsW9 : TextFS :=
  [(str "build/index.html", str "<html>plain</html>"),
   (str "build/app.css", str "A"), (str "build/viper_lib.css", str "B"),
   (str "build/viper_lib.js", str "D")]

/-- Witness for claim C9: the missing `build/app.js` makes `combine` throw
although the document contains no script placeholder. -/
theorem claim_C9_witness :
    isErr (combineFS fsW9 (str "build/index.html")) = true :=
  claim_C9_reads_all fsW9 (str "build/index.html") (str "<html>plain</html>") 2
    (by decide) (by decide) (by decide)

/-- Claim C10 (confirmed).  Each substitution of the Inliner replaces only
the first occurrence of its placeholder: when the first occurrence is at
`i` and another occurrence starts at `j`, the two cannot overlap, the bytes
before `i` are unchanged, the bytes after the replaced span are exactly the
original bytes after the placeholder, and the later occurrence reappears
verbatim in the output at the position shifted by the replacement length. -/
theorem claim_C10_first_only {s pat : List Char} (r : List Char) {i j : Nat}
    (hp : pat ∈ patsList) (hfirst : strFind pat s = some i)
    (hij : i < j) (hj : pat <+: s.drop j) :
    i + pat.length ≤ j
    ∧ (jsReplace s pat r).take i = s.take i
    ∧ (jsReplace s pat r).drop
        (i + (getSubstitution pat (s.take i) (s.drop (i + pat.length)) r).length)
      = s.drop (i + pat.length)
    ∧ pat <+: (jsReplace s pat r).drop
        (j - pat.length
          + (getSubstitution pat (s.take i) (s.drop (i + pat.length)) r).length) :=
  jsReplace_keeps_later r hp hfirst hij hj

/-- A document with two occurrences of the first placeholder, for the C10
witness. -/
def sW10 : List Char := cssLink1 ++ cssLink1

/-- Witness for claim C10 at a concrete document with two occurrences of the
`app.css` placeholder (the second at position 40). -/
theorem claim_C10_witness :
    0 + cssLink1.length ≤ 40
    ∧ (jsReplace sW10 cssLink1 (str "R")).take 0 = sW10.take 0
    ∧ (jsReplace sW10 cssLink1 (str "R")).drop
        (0 + (getSubstitution cssLink1 (sW10.take 0) (sW10.drop (0 + cssLink1.length))
          (str "R")).length)
      = sW10.drop (0 + cssLink1.length)
    ∧ cssLink1 <+: (jsReplace sW10 cssLink1 (str "R")).drop
        (40 - cssLink1.length
          + (getSubstitution cssLink1 (sW10.take 0) (sW10.drop (0 + cssLink1.length))
            (str "R")).length) :=
  claim_C10_first_only (str "R") (by decide) (by decide) (by decide) (by decide)

set_option maxRecDepth 20000 in
/-- Claim C2 (counterexample).  The claim quantifies over documents that
contain each of the four placeholder strings exactly once and asserts the
output has zero occurrences of the placeholders, with each inlined block's
body being the full, unmodified text of the compiled file.  It fails:
`String.prototype.replace` processes dollar escapes in the replacement
string, so a compiled stylesheet whose text is the two characters
dollar-ampersand is inlined as the matched placeholder itself — the output
still contains the first placeholder string, and the block body is not the
file's text. -/
theorem claim_C2_counterexample :
    (∀ j : Fin 4, countOcc (pats j) exDoc = 1)
    ∧ countOcc (pats 0)
        (combineContent exDoc (str "$&") (str "x") (str "x") (str "x")) = 1 := by
  decide

/-- Claim C2 (amended).  For every document of the shape
`t0 ++ q1 ++ t1 ++ q2 ++ t2 ++ q3 ++ t3 ++ q4 ++ t4`, where `(q1, q2, q3,
q4)` is a permutation `σ` of the four placeholder strings, each placeholder
occurring exactly once in the document, and where the four inlined blocks
contain no JavaScript dollar-substitution escapes and no occurrence of any
placeholder string, running the Inliner replaces each placeholder span by
exactly its corresponding inline block — whose body is the full, unmodified
text of the compiled file — leaves all bytes outside the four replaced spans
(`t0 … t4`) unchanged, and yields a document with zero occurrences of the
four placeholder strings. -/
theorem claim_C2_amended
    (σ : Fin 4 → Fin 4) (hbij : Function.Bijective σ)
    (t0 t1 t2 t3 t4 f1 f2 f3 f4 doc : List Char)
    (hdoc : doc = t0 ++ pats (σ 0) ++ t1 ++ pats (σ 1) ++ t2 ++ pats (σ 2)
        ++ t3 ++ pats (σ 3) ++ t4)
    (hcnt : ∀ j : Fin 4, countOcc (pats j) doc = 1)
    (hesc : ∀ m : Fin 4, escFree (blocksOf f1 f2 f3 f4 m) = true)
    (hclean : ∀ j m : Fin 4, countOcc (pats j) (blocksOf f1 f2 f3 f4 m) = 0) :
    combineContent doc f1 f2 f3 f4
        = t0 ++ blocksOf f1 f2 f3 f4 (σ 0) ++ t1 ++ blocksOf f1 f2 f3 f4 (σ 1)
          ++ t2 ++ blocksOf f1 f2 f3 f4 (σ 2) ++ t3 ++ blocksOf f1 f2 f3 f4 (σ 3) ++ t4
      ∧ ∀ j : Fin 4, countOcc (pats j) (combineContent doc f1 f2 f3 f4) = 0 :=
  combine_inline_core σ hbij t0 t1 t2 t3 t4 f1 f2 f3 f4 doc hdoc hcnt hesc hclean

set_option maxRecDepth 20000 in
/-- Witness for claim C2 at the identity permutation, empty surrounding
segments, and one-character compiled files. -/
theorem claim_C2_witness :
    combineContent exDoc (str "x") (str "x") (str "x") (str "x")
        = [] ++ blocksOf (str "x") (str "x") (str "x") (str "x") 0
          ++ [] ++ blocksOf (str "x") (str "x") (str "x") (str "x") 1
          ++ [] ++ blocksOf (str "x") (str "x") (str "x") (str "x") 2
          ++ [] ++ blocksOf (str "x") (str "x") (str "x") (str "x") 3 ++ []
      ∧ ∀ j : Fin 4,
          countOcc (pats j) (combineContent exDoc (str "x") (str "x") (str "x") (str "x"))
            = 0 :=
  claim_C2_amended (fun i => i) Function.bijective_id
    [] [] [] [] [] (str "x") (str "x") (str "x") (str "x") exDoc
    (by decide) (by decide) (by decide) (by decide)

/-- Parse stub for the concrete pipeline run: every file parses to an object
carrying a version string. -/
def parseS : List Char → Except (List Char) JVal :=
  fun _ => Except.ok (JVal.obj [(verKey, JVal.str (str "1.0.0"))])

/-- Serializer stub; only its determinism matters to the claims. -/
def stringifyS : JVal → List Char := fun _ => str "J"

/-- Tar byte-encoder stub. -/
def tarSerS : TarArchive → List Char := fun _ => str "T"

/-- External-command stub: `npm run build` emits the three entry-point
documents and the four compiled asset files; the other commands leave the
file system unchanged. -/
def extS : List Char → TextFS → Except (List Char) TextFS :=
  fun c fs =>
    if c = str "npm run build" then
      Except.ok (setF (setF (setF (setF (setF (setF (setF fs
        (str "build/index.html") exDoc)
        (str "build/bridge.html") exDoc)
        (str "build/benchmark.html") exDoc)
        (str "build/app.css") (str "x"))
        (str "build/viper_lib.css") (str "x"))
        (str "build/app.js") (str "x"))
        (str "build/viper_lib.js") (str "x"))
    else Except.ok fs

/-- The initial source tree for the concrete pipeline run. -/
def fsS : TextFS :=
  [(str "src/webrepl_content.js", str "w"),
   (str "assets/logo.png", str "L"),
   (str "src/lang/en.json", str "E"),
   (str "src/manifest.json", str "M"),
   (str "package.json", str "P"),
   (str "src/tools_vfs/boot.py", str "B"),
   (str "src/vm_vfs/main.py", str "V"),
   (str "node_modules/@micropython/micropython-webassembly-pyscript/micropython.wasm",
    str "1"),
   (str "node_modules/@micropython/micropython-webassembly-pyscript/micropython.mjs",
    str "2"),
   (str "node_modules/@pybricks/mpy-cross-v6/build/mpy-cross-v6.wasm", str "3"),
   (str "node_modules/@astral-sh/ruff-wasm-web/ruff_wasm_bg.wasm", str "4")]

/-- Does the build directory hold only the final HTML documents and the
assets subtree (the claim's "leaving only the final, self-contained HTML
documents and the assets directory")? -/
def OnlyFinalB (fs : TextFS) : Bool :=
  fs.all (fun kv =>
    !((str "build/").isPrefixOf kv.1)
    || kv.1 == str "build/index.html"
    || kv.1 == str "build/bridge.html"
    || kv.1 == str "build/benchmark.html"
    || (str "build/assets/").isPrefixOf kv.1)

set_option maxRecDepth 100000 in
set_option maxHeartbeats 2000000 in
/-- Claim C8 (counterexample).  The claim says the Cleanup stage leaves
"only the final, self-contained HTML documents and the assets directory" in
the build directory.  On a concrete successful run the five intermediates
are indeed deleted, but the build directory still holds the stamped manifest
(`build/manifest.json`) — an output artifact the driver never removes — as
well as `build/webrepl_content.js` and the vendored `build/micropython.mjs`,
so the "leaving only" part is false as stated. -/
theorem claim_C8_counterexample :
    isErr (execMain parseS stringifyS tarSerS extS fsS) = false
    ∧ (lookupRes (execMain parseS stringifyS tarSerS extS fsS)
        (str "build/manifest.json")).isSome = true
    ∧ OnlyFinalB (okFS (execMain parseS stringifyS tarSerS extS fsS)) = false := by
  decide

/-- Claim C8 (amended).  After the driver's Cleanup stage the five
intermediate files — the merged translation table and the separated
style/script files — no longer exist in the build directory, and no later
stage recreates them: for every run of `main` (any parse, serializer, tar
encoder, external-command behavior and initial file system), none of
`build/translations.json`, `build/app.css`, `build/viper_lib.css`,
`build/app.js`, `build/viper_lib.js` is present in the resulting file
system.  The final HTML documents and the assets directory remain, alongside
the other output artifacts (manifest, staged sources, vendored loader). -/
theorem claim_C8_amended (parse : List Char → Except (List Char) JVal)
    (stringify : JVal → List Char) (tarSer : TarArchive → List Char)
    (ext : List Char → TextFS → Except (List Char) TextFS) (fs0 : TextFS)
    (k : List Char)
    (hk : k ∈ [str "build/translations.json", str "build/app.css",
        str "build/viper_lib.css", str "build/app.js", str "build/viper_lib.js"]) :
    lookupRes (execMain parse stringify tarSer ext fs0) k = none := by
  unfold execMain
  cases hf : mainFront parse stringify tarSer ext fs0 with
  | error e => simp [lookupRes]
  | ok fs =>
    dsimp only
    cases ht : mainTail fs with
    | error e => simp [lookupRes]
    | ok fsF =>
      simp only [lookupRes]
      obtain ⟨q1, q2, q3, q4, q5⟩ := mainTail_removes ht
      simp only [List.mem_cons, List.not_mem_nil, or_false] at hk
      rcases hk with rfl | rfl | rfl | rfl | rfl <;> assumption

/-- Witness for claim C8 at the first intermediate path. -/
theorem claim_C8_witness :
    (str "build/translations.json"
        ∈ [str "build/translations.json", str "build/app.css",
           str "build/viper_lib.css", str "build/app.js", str "build/viper_lib.js"])
    ∧ lookupRes (execMain parseS stringifyS tarSerS extS fsS)
        (str "build/translations.json") = none :=
  ⟨by decide,
    claim_C8_amended parseS stringifyS tarSerS extS fsS
      (str "build/translations.json") (by decide)⟩

/-- A concrete virtual-filesystem directory for the C4 witness. -/
def fsT : TextFS := [(str "src/tools_vfs/boot.py", str "B")]

/-- Witness for claim C4 at a concrete one-file source directory and two
different machine contexts. -/
theorem claim_C4_witness :
    genTarModel fsT (str "src/tools_vfs") tarOptsUsed (fun _ => 5) 7 (str "me")
        = genTarModel fsT (str "src/tools_vfs") tarOptsUsed (fun _ => 9) 11 (str "you")
    ∧ (genTarModel fsT (str "src/tools_vfs") tarOptsUsed (fun _ => 5) 7
        (str "me")).gzipMtime = none
    ∧ ∀ e ∈ (genTarModel fsT (str "src/tools_vfs") tarOptsUsed (fun _ => 5) 7
        (str "me")).entries,
        e.mtime = none ∧ e.owner = none
          ∧ (str "src/tools_vfs" ++ str "/" ++ e.path, e.content) ∈ fsT :=
  claim_C4_tar_deterministic fsT (str "src/tools_vfs")
    (fun _ => 5) (fun _ => 9) 7 11 (str "me") (str "you")

/-- A concrete manifest template for the C6 witness. -/
def fieldsW6 : List (List Char × JVal) :=
  [(str "name", JVal.str (str "viper")), (verKey, JVal.str (str "0.0.0"))]

/-- Witness for claim C6 at a concrete template and version string. -/
theorem claim_C6_witness :
    genManifestModel (JVal.obj fieldsW6) (some (JVal.str (str "1.2.3")))
        = JVal.obj (objSet fieldsW6 verKey (JVal.str (str "1.2.3")))
    ∧ lookupJ (objSet fieldsW6 verKey (JVal.str (str "1.2.3"))) verKey
        = some (JVal.str (str "1.2.3"))
    ∧ (∀ k, k ≠ verKey →
        lookupJ (objSet fieldsW6 verKey (JVal.str (str "1.2.3"))) k
          = lookupJ fieldsW6 k)
    ∧ (objSet fieldsW6 verKey (JVal.str (str "1.2.3"))).filter
        (fun kv => !(kv.1 == verKey))
        = fieldsW6.filter (fun kv => !(kv.1 == verKey))
    ∧ (objSet fieldsW6 verKey (JVal.str (str "1.2.3"))).map Prod.fst
        = (if (lookupJ fieldsW6 verKey).isSome then fieldsW6.map Prod.fst
           else fieldsW6.map Prod.fst ++ [verKey])
    ∧ objSet (objSet fieldsW6 verKey (JVal.str (str "1.2.3"))) verKey
        (JVal.str (str "1.2.3"))
        = objSet fieldsW6 verKey (JVal.str (str "1.2.3")) :=
  claim_C6_manifest fieldsW6 (str "1.2.3")
